import Mathlib

/-!
# go-acl: a verification development of `rbac.go`

Shallow embedding of the role based access control model of package
`ginrouteacl` (file `rbac.go`), followed by theorems about it.

Modelling conventions.

* A Go `map[string]*T` is a finite map with unique keys (`GoMap`).  A map field
  is `Option (GoMap _)`: `none` is the unset (nil) map of a zero-value struct.
  Reading or deleting from a nil map behaves like the empty map; the source
  only writes after its lazy `make`.
* `ACRole.Scopes` is an exported field of type `map[string]*ACScope`, so an
  entry may hold the nil pointer: scope entries are `Option ACScope`.
  `ACL.roles` is unexported and written only by `AddRole`, which dereferences
  the role (`role.ID`) before storing it, so a stored role is never nil: role
  entries are `ACRole`.
* Pointers are represented by the value they point to; a nil pointer argument
  is `none`.  A run-time panic (nil dereference) is the result `none` of a
  function returning `Option`.
* `for _, v := range m` over a map visits the entries in an unspecified order:
  the loop is a function of the visiting sequence, and the order is chosen by
  an explicit argument.
* Slices are lists.  `slices.Delete` works in place, so `RemPermission` has two
  models: `ACScope.RemPermission` for an argument slice with storage of its
  own, and `ACScope.RemPermissionMem`, on the backing array, which also covers
  an argument that is a window of the receiver's own `Permissions` (as in
  `s.RemPermission(s.Permissions...)`).  The two agree on arguments with storage
  of their own.
* A role holds its scopes by pointer, so a change made to a held scope through
  that pointer is seen by the role: `ACRole.afterScopeUpdate` gives the role
  after such a change.
-/

namespace GoAcl

/-- A Go map keyed by strings: association list with pairwise distinct keys. -/
abbrev GoMap (V : Type) : Type := AList (fun _ : String => V)

/-- One entry of a Go map, as seen by `range`. -/
abbrev Entry (V : Type) : Type := Sigma (fun _ : String => V)

/-- Entries of a possibly nil map (a nil map ranges over nothing). -/
def mapEntries {V : Type} (m : Option (GoMap V)) : List (Entry V) :=
  match m with
  | none => []
  | some t => t.entries

/-- The comma-ok read `v, ok := m[k]` on a possibly nil map. -/
def mapGet {V : Type} (m : Option (GoMap V)) (k : String) : Option V :=
  match m with
  | none => none
  | some t => t.lookup k

/-- The builtin `delete(m, k)`: no-op on a nil map and on a missing key. -/
def mapDelete {V : Type} (m : Option (GoMap V)) (k : String) : Option (GoMap V) :=
  match m with
  | none => none
  | some t => some (t.erase k)

/-- The lazy initialisation `if m == nil { m = make(...) }`. -/
def mapInit {V : Type} (m : Option (GoMap V)) : GoMap V :=
  match m with
  | none => ∅
  | some t => t

/-- Loop of `slices.Index`: position of the first element equal to `v`,
counting from `i`, or `-1`. -/
def slicesIndexFrom (i : Nat) : List String → String → Int
  | [], _ => -1
  | x :: xs, v => if v = x then (i : Int) else slicesIndexFrom (i + 1) xs v

/-- `slices.Index(s, v)`. -/
def slicesIndex (s : List String) (v : String) : Int :=
  slicesIndexFrom 0 s v

/-- `slices.Contains(s, v)`, which is `Index(s, v) >= 0`. -/
def slicesContains (s : List String) (v : String) : Bool :=
  decide (0 ≤ slicesIndex s v)

/-- `slices.Delete(s, i, j)` for `i ≤ j ≤ len(s)`: `s[:i]` followed by `s[j:]`. -/
def slicesDelete (s : List String) (i j : Nat) : List String :=
  s.take i ++ s.drop j

/-- `slices.Concat(slices...)`: starting from an empty slice, every argument
is appended in turn. -/
def slicesConcat (slices : List (List String)) : List String :=
  slices.foldl (fun newslice s => newslice ++ s) []

/-- Type `ACScope`. -/
structure ACScope where
  ID : String
  Name : String
  Permissions : List String
deriving DecidableEq, Repr

/-- Type `ACRole`; `Scopes = none` is the unset map. -/
structure ACRole where
  ID : String
  Name : String
  Scopes : Option (GoMap (Option ACScope))
deriving DecidableEq

/-- Type `ACL`; `roles = none` is the unset map. -/
structure ACL where
  roles : Option (GoMap ACRole)
deriving DecidableEq

/-- Method `(*ACScope).AddPermission`. -/
def ACScope.AddPermission (r : ACScope) (p : List String) : ACScope :=
  { r with Permissions := slicesConcat [r.Permissions, p] }

/-- Body of the loop of `RemPermission` for one argument `v`. -/
def remPermissionStep (perms : List String) (v : String) : List String :=
  let i := slicesIndex perms v
  if 0 ≤ i then slicesDelete perms i.toNat (i.toNat + 1) else perms

/-- Method `(*ACScope).RemPermission`, for an argument slice `p` that has
storage of its own (literal arguments, or a slice that does not share the
backing array of `r.Permissions`).  `ACScope.RemPermissionMem` is the model on
the backing array, for every argument. -/
def ACScope.RemPermission (r : ACScope) (p : List String) : ACScope :=
  { r with Permissions := p.foldl remPermissionStep r.Permissions }

/-- Loop of `AddScope` over the arguments, on the initialised map: a nil
argument panics at `v.ID`. -/
def addScopeLoop (m : GoMap (Option ACScope)) :
    List (Option ACScope) → Option (GoMap (Option ACScope))
  | [] => some m
  | none :: _ => none
  | some v :: rest => addScopeLoop (m.insert v.ID (some v)) rest

/-- Method `(*ACRole).AddScope`. -/
def ACRole.AddScope (acr : ACRole) (Scopes : List (Option ACScope)) : Option ACRole :=
  match addScopeLoop (mapInit acr.Scopes) Scopes with
  | none => none
  | some m => some { acr with Scopes := some m }

/-- Method `(*ACRole).RemScopeByID`. -/
def ACRole.RemScopeByID (acr : ACRole) (IDs : List String) : ACRole :=
  { acr with Scopes := IDs.foldl mapDelete acr.Scopes }

/-- The index expression `acr.Scopes[scopeID]`: the stored pointer, nil when
the key is missing (or the map unset). -/
def scopeAt (acr : ACRole) (scopeID : String) : Option ACScope :=
  (mapGet acr.Scopes scopeID).join

/-- Method `(*ACRole).IsAllowed`. -/
def ACRole.IsAllowed (acr : ACRole) (scopeID permission : String) : Bool :=
  match scopeAt acr scopeID with
  | some sc => if slicesContains sc.Permissions permission then true else false
  | none => false

/-- Loop of `IsAllowedUniquely` along a visiting sequence of the scope map:
`v.Permissions` panics on a nil entry. -/
def rangeAllowedUniquely : List (Entry (Option ACScope)) → String → Option Bool
  | [], _ => some false
  | ⟨_, none⟩ :: _, _ => none
  | ⟨_, some v⟩ :: rest, permission =>
    if slicesContains v.Permissions permission then some true
    else rangeAllowedUniquely rest permission

/-- Method `(*ACRole).IsAllowedUniquely`; `order` arranges the entries of the
scope map into the sequence in which `range` visits them. -/
def ACRole.IsAllowedUniquely (acr : ACRole)
    (order : List (Entry (Option ACScope)) → List (Entry (Option ACScope)))
    (permission : String) : Option Bool :=
  rangeAllowedUniquely (order (mapEntries acr.Scopes)) permission

/-- Function `NewRoleWithUniquePermissions`. -/
def NewRoleWithUniquePermissions (roleID name : String) (permissions : List String) :
    Option ACRole :=
  let sc : ACScope := { ID := roleID, Name := "", Permissions := permissions }
  let r : ACRole := { ID := roleID, Name := name, Scopes := none }
  r.AddScope [some sc]

/-- Loop of `AddRole` over the arguments, on the initialised map: a nil
argument panics at `role.ID`. -/
def addRoleLoop (m : GoMap ACRole) : List (Option ACRole) → Option (GoMap ACRole)
  | [] => some m
  | none :: _ => none
  | some role :: rest => addRoleLoop (m.insert role.ID role) rest

/-- Method `(*ACL).AddRole`. -/
def ACL.AddRole (a : ACL) (roles : List (Option ACRole)) : Option ACL :=
  match addRoleLoop (mapInit a.roles) roles with
  | none => none
  | some m => some { roles := some m }

/-- Method `(*ACL).RemRoleByID`. -/
def ACL.RemRoleByID (a : ACL) (IDs : List String) : ACL :=
  { roles := IDs.foldl mapDelete a.roles }

/-- Method `(*ACL).IsRoleAllowed`. -/
def ACL.IsRoleAllowed (a : ACL) : List String → String → String → Bool
  | [], _, _ => false
  | roleID :: rest, scopeID, permission =>
    match mapGet a.roles roleID with
    | some r =>
      if r.IsAllowed scopeID permission then true
      else a.IsRoleAllowed rest scopeID permission
    | none => a.IsRoleAllowed rest scopeID permission

/-- Loop of `IsRoleAllowedUniquely` from the `i`-th element of `roleIDs` on;
`pick i` is the order in which the `range` over the scope map started in that
iteration visits the entries. -/
def isRoleAllowedUniquelyFrom (a : ACL)
    (pick : Nat → List (Entry (Option ACScope)) → List (Entry (Option ACScope)))
    (i : Nat) : List String → String → Option Bool
  | [], _ => some false
  | roleID :: rest, permission =>
    match mapGet a.roles roleID with
    | some r =>
      match r.IsAllowedUniquely (pick i) permission with
      | none => none
      | some true => some true
      | some false => isRoleAllowedUniquelyFrom a pick (i + 1) rest permission
    | none => isRoleAllowedUniquelyFrom a pick (i + 1) rest permission

/-- Method `(*ACL).IsRoleAllowedUniquely`. -/
def ACL.IsRoleAllowedUniquely (a : ACL)
    (pick : Nat → List (Entry (Option ACScope)) → List (Entry (Option ACScope)))
    (roleIDs : List String) (permission : String) : Option Bool :=
  isRoleAllowedUniquelyFrom a pick 0 roleIDs permission

/-- Scope `S1` of the end-to-end scenario. -/
def scenarioScope : ACScope :=
  { ID := "orders", Name := "", Permissions := ["read", "write"] }

/-- Role `R1` of the end-to-end scenario, before any scope is attached. -/
def scenarioRole : ACRole :=
  { ID := "manager", Name := "", Scopes := none }

/-- Registry `A` of the end-to-end scenario: `R1.AddScope(S1)`, then
`A.AddRole(R1)` on a zero-value `ACL`. -/
def scenarioACL : Option ACL :=
  match scenarioRole.AddScope [some scenarioScope] with
  | none => none
  | some r => ACL.AddRole { roles := none } [some r]

/-- No entry of the scope map of `acr` holds the nil pointer. -/
def NoNilScope (acr : ACRole) : Prop :=
  ∀ e ∈ mapEntries acr.Scopes, e.2 ≠ none

instance (acr : ACRole) : Decidable (NoNilScope acr) :=
  inferInstanceAs (Decidable (∀ e ∈ mapEntries acr.Scopes, e.2 ≠ none))

/-- A visiting order of `range`: it arranges the entries it is given, dropping
and adding none. -/
def IsOrder (order : List (Entry (Option ACScope)) → List (Entry (Option ACScope))) : Prop :=
  ∀ l, (order l).Perm l

/-- The role `acr` holds a scope whose permission list has `permission`. -/
def GrantsSomewhere (acr : ACRole) (permission : String) : Prop :=
  ∃ k sc, mapGet acr.Scopes k = some (some sc) ∧ permission ∈ sc.Permissions

/-- A role whose scope map holds one entry, the nil pointer under key `a`
(`&ACRole{ID: "x", Scopes: map[string]*ACScope{"a": nil}}`). -/
def nilEntryRole : ACRole :=
  { ID := "x", Name := "", Scopes := some (AList.singleton "a" none) }

/-- A role holding one scope `y` with the single permission `p`. -/
def grantRole : ACRole :=
  { ID := "y", Name := "Y",
    Scopes := some (AList.singleton "y" (some { ID := "y", Name := "", Permissions := ["p"] })) }

/-- A role with two entries: the nil pointer under key `a` and, under key `b`,
a scope with the single permission `p`. -/
def nilAndGrantRole : ACRole :=
  { ID := "z", Name := "",
    Scopes := some (((∅ : GoMap (Option ACScope)).insert "b"
      (some { ID := "b", Name := "", Permissions := ["p"] })).insert "a" none) }

/-- A registry built by `AddRole(nilEntryRole, grantRole)` on a zero-value
`ACL`. -/
def nilEntryACL : Option ACL :=
  ACL.AddRole { roles := none } [some nilEntryRole, some grantRole]

/-- A scope `orders` that only has the permission `read`. -/
def readOnlyScope : ACScope :=
  { ID := "orders", Name := "", Permissions := ["read"] }

/-- A scope `invoices` with the permission `pay`. -/
def invoiceScope : ACScope :=
  { ID := "invoices", Name := "", Permissions := ["pay"] }

/-- A role holding the scopes `orders` (of the scenario) and `invoices`. -/
def twoScopeRole : ACRole :=
  { ID := "clerk", Name := "",
    Scopes := some (((∅ : GoMap (Option ACScope)).insert "orders" (some scenarioScope)).insert
      "invoices" (some invoiceScope)) }

/-- Specification of one removal, in the words of the spec: erase the first
(lowest-index) occurrence of `v` if there is one, else change nothing. -/
def specEraseFirst : List String → String → List String
  | [], _ => []
  | x :: xs, v => if x = v then xs else x :: specEraseFirst xs v

/-- Specification of `removePermission`: the arguments are processed left to
right, each erasing its first occurrence in the current list. -/
def specRemovePermission (L p : List String) : List String :=
  p.foldl specEraseFirst L

/-- The role `manager` of the scenario after `AddScope(S1)`. -/
def managerRole : ACRole :=
  { ID := "manager", Name := "",
    Scopes := some (AList.singleton "orders" (some scenarioScope)) }

/-- A registry with the roles `manager` and `clerk`. -/
def twoRoleACL : ACL :=
  { roles := some (((∅ : GoMap ACRole).insert "manager" managerRole).insert "clerk"
      twoScopeRole) }

/-- `slices.Delete(s, i, j)` with its bounds check `_ = s[i:j:len(s)]`, which
panics unless `i ≤ j ≤ len(s)`. -/
def slicesDeleteChecked (s : List String) (i j : Nat) : Option (List String) :=
  if i ≤ j ∧ j ≤ s.length then some (s.take i ++ s.drop j) else none

/-- Body of the loop of `RemPermission`, with the bounds check of
`slices.Delete`. -/
def remPermissionStepChecked (perms : List String) (v : String) : Option (List String) :=
  let i := slicesIndex perms v
  if 0 ≤ i then slicesDeleteChecked perms i.toNat (i.toNat + 1) else some perms

/-- Loop of `RemPermission` with the bounds check of `slices.Delete`: a failed
check ends the call. -/
def remPermissionLoopChecked (perms : List String) : List String → Option (List String)
  | [] => some perms
  | v :: rest =>
    match remPermissionStepChecked perms v with
    | none => none
    | some perms' => remPermissionLoopChecked perms' rest

/-- Method `(*ACScope).RemPermission` with the bounds check of `slices.Delete`
made explicit. -/
def ACScope.RemPermissionChecked (r : ACScope) (p : List String) : Option ACScope :=
  match remPermissionLoopChecked r.Permissions p with
  | none => none
  | some perms => some { r with Permissions := perms }

/-- State of the role after the scope object stored under `scopeID` was changed
in place by `f` through its pointer (as `s.RemPermission(..)` does on a scope
`s` that the role holds): the entry under `scopeID` now reads the changed
scope.  Without a scope under `scopeID` the role is unchanged. -/
def ACRole.afterScopeUpdate (acr : ACRole) (scopeID : String) (f : ACScope → ACScope) :
    ACRole :=
  match mapGet acr.Scopes scopeID with
  | some (some sc) =>
    { acr with Scopes := some ((mapInit acr.Scopes).insert scopeID (some (f sc))) }
  | _ => acr

/-- The scope after `n` successive calls `s.RemPermission(p)`. -/
def removeTimes (p : String) : Nat → ACScope → ACScope
  | 0, s => s
  | n + 1, s => removeTimes p n (s.RemPermission [p])

/-- A call on a role: `AddScope` with non-nil scopes, or `RemScopeByID`. -/
inductive RoleOp where
  | addScope (Scopes : List ACScope)
  | remScopeByID (IDs : List String)

/-- A call on a registry: `AddRole` with non-nil roles, or `RemRoleByID`. -/
inductive ACLOp where
  | addRole (roles : List ACRole)
  | remRoleByID (IDs : List String)

/-- The role after one call. -/
def RoleOp.apply (acr : ACRole) : RoleOp → Option ACRole
  | RoleOp.addScope Scopes => acr.AddScope (Scopes.map some)
  | RoleOp.remScopeByID IDs => some (acr.RemScopeByID IDs)

/-- The registry after one call. -/
def ACLOp.apply (a : ACL) : ACLOp → Option ACL
  | ACLOp.addRole roles => a.AddRole (roles.map some)
  | ACLOp.remRoleByID IDs => some (a.RemRoleByID IDs)

/-- The role after a sequence of calls, made in order. -/
def runRoleOps (acr : ACRole) : List RoleOp → Option ACRole
  | [] => some acr
  | op :: rest =>
    match op.apply acr with
    | none => none
    | some acr' => runRoleOps acr' rest

/-- The registry after a sequence of calls, made in order. -/
def runACLOps (a : ACL) : List ACLOp → Option ACL
  | [] => some a
  | op :: rest =>
    match op.apply a with
    | none => none
    | some a' => runACLOps a' rest

/-- Every key of the scope map holds a scope whose `ID` is that key. -/
def ScopeKeysAgree (acr : ACRole) : Prop :=
  ∀ k v, mapGet acr.Scopes k = some v → ∃ sc, v = some sc ∧ sc.ID = k

/-- Every key of the role map holds a role whose `ID` is that key. -/
def RoleKeysAgree (a : ACL) : Prop :=
  ∀ k r, mapGet a.roles k = some r → r.ID = k

/-- A scope in which the permission `read` occurs twice. -/
def dupScope : ACScope :=
  { ID := "files", Name := "", Permissions := ["read", "write", "read"] }

/-- A role holding `dupScope`. -/
def dupRole : ACRole :=
  { ID := "editor", Name := "", Scopes := some (AList.singleton "files" (some dupScope)) }

/-- The backing array of `r.Permissions` during `RemPermission`: the cells
within the length of the slice (`live`) followed by the cells beyond it
(`spare`). -/
structure PermStore where
  live : List String
  spare : List String
deriving DecidableEq, Repr

/-- The variadic argument of `r.RemPermission(p...)`: a slice with storage of
its own, or the window `r.Permissions[off : off+n]` of the receiver's own
slice passed with `...`, which shares the backing array. -/
inductive PermArg where
  | fresh (vals : List String)
  | shared (off n : Nat)
deriving DecidableEq, Repr

/-- Length of the argument slice, fixed when `range p` starts. -/
def PermArg.len : PermArg → Nat
  | PermArg.fresh vals => vals.length
  | PermArg.shared _ n => n

/-- The element `p[k]` as `range p` reads it in iteration `k`: from the
argument's own storage, or from the current content of the shared backing
array. -/
def PermArg.read (arg : PermArg) (k : Nat) (st : PermStore) : String :=
  match arg with
  | PermArg.fresh vals => vals.getD k ""
  | PermArg.shared off _ => (st.live ++ st.spare).getD (off + k) ""

/-- In-place `slices.Delete(s, i, i+1)` on the backing array: the elements
after position `i` move one cell down and the slice gets one shorter; the cell
that falls out of the slice is zeroed when `clears` (the `clear` call of
`slices.Delete` since Go 1.22) and keeps its old content otherwise. -/
def PermStore.deleteAt (clears : Bool) (st : PermStore) (i : Nat) : PermStore :=
  { live := slicesDelete st.live i (i + 1),
    spare := (if clears then "" else st.live.getLastD "") :: st.spare }

/-- Body of the loop of `RemPermission` on the backing array, for the element
`v` just read. -/
def remPermissionStepMem (clears : Bool) (st : PermStore) (v : String) : PermStore :=
  let i := slicesIndex st.live v
  if 0 ≤ i then st.deleteAt clears i.toNat else st

/-- Loop of `RemPermission` on the backing array: `todo` iterations are left
and the next one reads `p[k]`. -/
def remPermissionLoopMem (clears : Bool) (arg : PermArg) : Nat → Nat → PermStore → PermStore
  | 0, _, st => st
  | todo + 1, k, st =>
    remPermissionLoopMem clears arg todo (k + 1) (remPermissionStepMem clears st (arg.read k st))

/-- Method `(*ACScope).RemPermission` on the backing array of `r.Permissions`
(taken with capacity equal to its length).  For `PermArg.shared off n` the
window must lie within the slice, `off + n ≤ len(r.Permissions)`. -/
def ACScope.RemPermissionMem (clears : Bool) (r : ACScope) (arg : PermArg) : ACScope :=
  { r with Permissions :=
      (remPermissionLoopMem clears arg arg.len 0 { live := r.Permissions, spare := [] }).live }

/-- A scope with the permissions `a`, `b`, `c`. -/
def abcScope : ACScope :=
  { ID := "s", Name := "", Permissions := ["a", "b", "c"] }

/-! ## Slices -/

theorem slicesIndexFrom_cases (s : List String) (v : String) (i : Nat) :
    (v ∈ s → ∃ n : Nat, slicesIndexFrom i s v = ((i + n : Nat) : Int) ∧ n < s.length ∧
        s.take n ++ s.drop (n + 1) = s.erase v) ∧
    (v ∉ s → slicesIndexFrom i s v = -1) := by
  induction s generalizing i with
  | nil => simp [slicesIndexFrom]
  | cons x xs ih =>
    by_cases hv : v = x
    · subst hv
      refine ⟨fun _ => ⟨0, ?_, ?_, ?_⟩, fun h => absurd (List.mem_cons_self _ _) h⟩
      · simp [slicesIndexFrom]
      · simp
      · simp
    · have hx : x ≠ v := fun h => hv h.symm
      refine ⟨fun hmem => ?_, fun hnot => ?_⟩
      · have hmem' : v ∈ xs := by
          rcases List.mem_cons.1 hmem with h | h
          · exact absurd h hv
          · exact h
        obtain ⟨n, h1, h2, h3⟩ := (ih (i + 1)).1 hmem'
        refine ⟨n + 1, ?_, ?_, ?_⟩
        · simp only [slicesIndexFrom, if_neg hv, h1]
          congr 1
          omega
        · simpa using h2
        · have hbeq : (x == v) = false := by simpa using hx
          simp [List.erase_cons, hbeq, h3]
      · have hnot' : v ∉ xs := fun h => hnot (List.mem_cons_of_mem _ h)
        simp only [slicesIndexFrom, if_neg hv]
        exact (ih (i + 1)).2 hnot'

theorem slicesContains_iff (s : List String) (v : String) :
    slicesContains s v = true ↔ v ∈ s := by
  unfold slicesContains slicesIndex
  rw [decide_eq_true_iff]
  constructor
  · intro h
    by_contra hn
    rw [(slicesIndexFrom_cases s v 0).2 hn] at h
    omega
  · intro h
    obtain ⟨n, h1, _, _⟩ := (slicesIndexFrom_cases s v 0).1 h
    rw [h1]
    omega

theorem remPermissionStep_eq_erase (perms : List String) (v : String) :
    remPermissionStep perms v = perms.erase v := by
  unfold remPermissionStep slicesIndex slicesDelete
  by_cases h : v ∈ perms
  · obtain ⟨n, h1, _, h3⟩ := (slicesIndexFrom_cases perms v 0).1 h
    have hn : slicesIndexFrom 0 perms v = (n : Int) := by simpa using h1
    simp only [hn]
    rw [if_pos (by omega)]
    simpa using h3
  · rw [(slicesIndexFrom_cases perms v 0).2 h]
    simp [List.erase_of_not_mem h]

theorem specEraseFirst_eq_erase (l : List String) (v : String) :
    specEraseFirst l v = l.erase v := by
  induction l with
  | nil => rfl
  | cons x xs ih =>
    by_cases h : x = v
    · simp [specEraseFirst, h]
    · have hbeq : (x == v) = false := by simpa using h
      simp [specEraseFirst, h, List.erase_cons, hbeq, ih]

theorem foldl_remPermissionStep_eq (p L : List String) :
    p.foldl remPermissionStep L = p.foldl List.erase L := by
  induction p generalizing L with
  | nil => rfl
  | cons v rest ih => simp only [List.foldl_cons, remPermissionStep_eq_erase, ih]

theorem foldl_specEraseFirst_eq (p L : List String) :
    p.foldl specEraseFirst L = p.foldl List.erase L := by
  induction p generalizing L with
  | nil => rfl
  | cons v rest ih => simp only [List.foldl_cons, specEraseFirst_eq_erase, ih]

theorem foldl_erase_sublist (p L : List String) : (p.foldl List.erase L).Sublist L := by
  induction p generalizing L with
  | nil => exact List.Sublist.refl L
  | cons v rest ih => exact (ih (L.erase v)).trans (List.erase_sublist v L)

theorem count_foldl_erase (p L : List String) (q : String) :
    (p.foldl List.erase L).count q = L.count q - p.count q := by
  induction p generalizing L with
  | nil => simp
  | cons v rest ih =>
    rw [List.foldl_cons, ih, List.count_erase, List.count_cons]
    split <;> omega

/-! ## Role queries -/

theorem scopeAt_eq_some (acr : ACRole) (scopeID : String) (sc : ACScope) :
    scopeAt acr scopeID = some sc ↔ mapGet acr.Scopes scopeID = some (some sc) := by
  unfold scopeAt
  cases h : mapGet acr.Scopes scopeID with
  | none => simp
  | some o => cases o <;> simp

theorem IsAllowed_iff (acr : ACRole) (scopeID permission : String) :
    acr.IsAllowed scopeID permission = true ↔
      ∃ sc, mapGet acr.Scopes scopeID = some (some sc) ∧ permission ∈ sc.Permissions := by
  unfold ACRole.IsAllowed
  cases h : scopeAt acr scopeID with
  | none =>
    simp only [Bool.false_eq_true, false_iff]
    rintro ⟨sc, hsc, _⟩
    rw [← scopeAt_eq_some, h] at hsc
    exact Option.noConfusion hsc
  | some sc =>
    rw [scopeAt_eq_some] at h
    simp [h, slicesContains_iff]

theorem mem_mapEntries_iff {V : Type} (m : Option (GoMap V)) (k : String) (v : V) :
    (⟨k, v⟩ : Entry V) ∈ mapEntries m ↔ mapGet m k = some v := by
  cases m with
  | none => simp [mapEntries, mapGet]
  | some t =>
    simp only [mapEntries, mapGet]
    exact (AList.mem_lookup_iff (a := k) (b := v) (s := t)).symm

theorem rangeAllowedUniquely_of_noNil (l : List (Entry (Option ACScope))) (permission : String)
    (h : ∀ e ∈ l, e.2 ≠ none) :
    ∃ b, rangeAllowedUniquely l permission = some b ∧
      (b = true ↔ ∃ e ∈ l, ∃ sc, e.2 = some sc ∧ permission ∈ sc.Permissions) := by
  induction l with
  | nil => exact ⟨false, rfl, by simp⟩
  | cons e rest ih =>
    obtain ⟨k, v⟩ := e
    cases v with
    | none => exact absurd rfl (h ⟨k, none⟩ (List.mem_cons_self _ _))
    | some sc =>
      by_cases hc : slicesContains sc.Permissions permission = true
      · refine ⟨true, by simp [rangeAllowedUniquely, hc], ?_⟩
        simp only [true_iff]
        exact ⟨⟨k, some sc⟩, List.mem_cons_self _ _, sc, rfl, (slicesContains_iff _ _).1 hc⟩
      · obtain ⟨b, hb, hiff⟩ := ih (fun e he => h e (List.mem_cons_of_mem _ he))
        refine ⟨b, by simp [rangeAllowedUniquely, hc, hb], ?_⟩
        rw [hiff]
        constructor
        · rintro ⟨e, he, x⟩
          exact ⟨e, List.mem_cons_of_mem _ he, x⟩
        · rintro ⟨e, he, sc', hsc', hp⟩
          rcases List.mem_cons.1 he with heq | hmem
          · subst heq
            simp only [Option.some.injEq] at hsc'
            subst hsc'
            exact absurd ((slicesContains_iff _ _).2 hp) hc
          · exact ⟨e, hmem, sc', hsc', hp⟩

theorem rangeAllowedUniquely_true_sound (l : List (Entry (Option ACScope)))
    (permission : String) (h : rangeAllowedUniquely l permission = some true) :
    ∃ e ∈ l, ∃ sc, e.2 = some sc ∧ permission ∈ sc.Permissions := by
  induction l with
  | nil => simp [rangeAllowedUniquely] at h
  | cons e rest ih =>
    obtain ⟨k, v⟩ := e
    cases v with
    | none => simp [rangeAllowedUniquely] at h
    | some sc =>
      by_cases hc : slicesContains sc.Permissions permission = true
      · exact ⟨⟨k, some sc⟩, List.mem_cons_self _ _, sc, rfl, (slicesContains_iff _ _).1 hc⟩
      · simp only [rangeAllowedUniquely, hc, Bool.false_eq_true, if_false] at h
        obtain ⟨e, he, x⟩ := ih h
        exact ⟨e, List.mem_cons_of_mem _ he, x⟩

theorem IsAllowedUniquely_of_noNil (acr : ACRole)
    (order : List (Entry (Option ACScope)) → List (Entry (Option ACScope)))
    (permission : String) (hord : IsOrder order) (h : NoNilScope acr) :
    ∃ b, acr.IsAllowedUniquely order permission = some b ∧
      (b = true ↔ GrantsSomewhere acr permission) := by
  have hperm := hord (mapEntries acr.Scopes)
  obtain ⟨b, hb, hiff⟩ := rangeAllowedUniquely_of_noNil (order (mapEntries acr.Scopes))
    permission (fun e he => h e (hperm.mem_iff.1 he))
  refine ⟨b, hb, ?_⟩
  rw [hiff]
  constructor
  · rintro ⟨⟨k, v⟩, he, sc, hsc, hp⟩
    simp only at hsc
    subst hsc
    exact ⟨k, sc, (mem_mapEntries_iff _ _ _).1 (hperm.mem_iff.1 he), hp⟩
  · rintro ⟨k, sc, hget, hp⟩
    exact ⟨⟨k, some sc⟩, hperm.mem_iff.2 ((mem_mapEntries_iff _ _ _).2 hget), sc, rfl, hp⟩

/-! ## Registry queries -/

theorem IsRoleAllowed_iff (a : ACL) (roleIDs : List String) (scopeID permission : String) :
    a.IsRoleAllowed roleIDs scopeID permission = true ↔
      ∃ roleID ∈ roleIDs, ∃ r, mapGet a.roles roleID = some r ∧
        r.IsAllowed scopeID permission = true := by
  induction roleIDs with
  | nil => simp [ACL.IsRoleAllowed]
  | cons x xs ih =>
    unfold ACL.IsRoleAllowed
    cases h : mapGet a.roles x with
    | none =>
      simp only [ih, List.mem_cons, exists_eq_or_imp, h]
      simp
    | some r =>
      by_cases hr : r.IsAllowed scopeID permission = true
      · simp [hr, h]
      · simpa [hr, h] using ih

theorem isRoleAllowedUniquelyFrom_of_noNil (a : ACL)
    (pick : Nat → List (Entry (Option ACScope)) → List (Entry (Option ACScope)))
    (i : Nat) (roleIDs : List String) (permission : String)
    (hpick : ∀ j, IsOrder (pick j))
    (h : ∀ roleID ∈ roleIDs, ∀ r, mapGet a.roles roleID = some r → NoNilScope r) :
    ∃ b, isRoleAllowedUniquelyFrom a pick i roleIDs permission = some b ∧
      (b = true ↔ ∃ roleID ∈ roleIDs, ∃ r, mapGet a.roles roleID = some r ∧
        GrantsSomewhere r permission) := by
  induction roleIDs generalizing i with
  | nil => exact ⟨false, rfl, by simp⟩
  | cons x xs ih =>
    obtain ⟨b, hb, hiff⟩ := ih (i + 1) (fun y hy => h y (List.mem_cons_of_mem _ hy))
    unfold isRoleAllowedUniquelyFrom
    cases hx : mapGet a.roles x with
    | none =>
      refine ⟨b, by simpa using hb, ?_⟩
      simp only [hiff, List.mem_cons, exists_eq_or_imp, hx]
      simp
    | some r =>
      obtain ⟨c, hc, hciff⟩ := IsAllowedUniquely_of_noNil r (pick i) permission (hpick i)
        (h x (List.mem_cons_self _ _) r hx)
      cases c with
      | true =>
        refine ⟨true, by simp [hc], ?_⟩
        simp only [true_iff]
        exact ⟨x, List.mem_cons_self _ _, r, hx, hciff.1 rfl⟩
      | false =>
        have hng : ¬ GrantsSomewhere r permission := fun hg => by
          have := hciff.2 hg
          exact Bool.noConfusion this
        refine ⟨b, by simpa [hc] using hb, ?_⟩
        simp only [hiff, List.mem_cons, exists_eq_or_imp, hx]
        simp [hng]

theorem isRoleAllowedUniquelyFrom_unregistered (a : ACL)
    (pick : Nat → List (Entry (Option ACScope)) → List (Entry (Option ACScope)))
    (i : Nat) (roleIDs : List String) (permission : String)
    (h : ∀ roleID ∈ roleIDs, mapGet a.roles roleID = none) :
    isRoleAllowedUniquelyFrom a pick i roleIDs permission = some false := by
  induction roleIDs generalizing i with
  | nil => rfl
  | cons x xs ih =>
    unfold isRoleAllowedUniquelyFrom
    rw [h x (List.mem_cons_self _ _)]
    exact ih (i + 1) (fun y hy => h y (List.mem_cons_of_mem _ hy))

theorem IsRoleAllowed_unregistered (a : ACL) (roleIDs : List String)
    (scopeID permission : String)
    (h : ∀ roleID ∈ roleIDs, mapGet a.roles roleID = none) :
    a.IsRoleAllowed roleIDs scopeID permission = false := by
  rw [← Bool.not_eq_true, IsRoleAllowed_iff]
  rintro ⟨roleID, hmem, r, hr, _⟩
  rw [h roleID hmem] at hr
  exact Option.noConfusion hr

theorem IsAllowedUniquely_nilEntryRole (order : List (Entry (Option ACScope)) →
    List (Entry (Option ACScope))) (permission : String) (h : IsOrder order) :
    nilEntryRole.IsAllowedUniquely order permission = none := by
  have hperm := h (mapEntries nilEntryRole.Scopes)
  have hl : mapEntries nilEntryRole.Scopes = [⟨"a", none⟩] := rfl
  rw [hl, List.perm_singleton] at hperm
  unfold ACRole.IsAllowedUniquely
  rw [hl, hperm]
  rfl

theorem IsRoleAllowedUniquely_through_nil_entry (a : ACL)
    (pick : Nat → List (Entry (Option ACScope)) → List (Entry (Option ACScope)))
    (rest : List String) (permission : String) (h : ∀ j, IsOrder (pick j))
    (hx : mapGet a.roles "x" = some nilEntryRole) :
    a.IsRoleAllowedUniquely pick ("x" :: rest) permission = none := by
  unfold ACL.IsRoleAllowedUniquely isRoleAllowedUniquelyFrom
  rw [hx]
  simp only [IsAllowedUniquely_nilEntryRole (pick 0) permission (h 0)]

/-! ## Insertion loops -/

theorem addRoleLoop_lookup (rs : List ACRole) (m : GoMap ACRole) :
    ∃ m', addRoleLoop m (rs.map some) = some m' ∧
      ∀ k, m'.lookup k =
        match rs.reverse.find? (fun r => decide (r.ID = k)) with
        | some r => some r
        | none => m.lookup k := by
  induction rs generalizing m with
  | nil => exact ⟨m, rfl, fun k => rfl⟩
  | cons r rest ih =>
    obtain ⟨m', hm', hk⟩ := ih (m.insert r.ID r)
    refine ⟨m', by simpa [addRoleLoop] using hm', fun k => ?_⟩
    rw [hk k, List.reverse_cons, List.find?_append]
    cases hf : rest.reverse.find? (fun r => decide (r.ID = k)) with
    | some t => simp
    | none =>
      by_cases hid : r.ID = k
      · subst hid
        simp [AList.lookup_insert]
      · have hne : k ≠ r.ID := fun h => hid h.symm
        simp [hid, AList.lookup_insert_ne hne]

theorem addScopeLoop_lookup (ss : List ACScope) (m : GoMap (Option ACScope)) :
    ∃ m', addScopeLoop m (ss.map some) = some m' ∧
      ∀ k, m'.lookup k =
        match ss.reverse.find? (fun sc => decide (sc.ID = k)) with
        | some sc => some (some sc)
        | none => m.lookup k := by
  induction ss generalizing m with
  | nil => exact ⟨m, rfl, fun k => rfl⟩
  | cons sc rest ih =>
    obtain ⟨m', hm', hk⟩ := ih (m.insert sc.ID (some sc))
    refine ⟨m', by simpa [addScopeLoop] using hm', fun k => ?_⟩
    rw [hk k, List.reverse_cons, List.find?_append]
    cases hf : rest.reverse.find? (fun sc => decide (sc.ID = k)) with
    | some t => simp
    | none =>
      by_cases hid : sc.ID = k
      · subst hid
        simp [AList.lookup_insert]
      · have hne : k ≠ sc.ID := fun h => hid h.symm
        simp [hid, AList.lookup_insert_ne hne]

theorem find?_reverse_of_last {α : Type} (key : α → String) (l pre post : List α) (x : α)
    (h : l = pre ++ x :: post) (hpost : ∀ t ∈ post, key t ≠ key x) :
    l.reverse.find? (fun t => decide (key t = key x)) = some x := by
  rw [List.find?_eq_some]
  refine ⟨by simp, post.reverse, pre.reverse, by simp [h], ?_⟩
  intro t ht
  simpa using hpost t (List.mem_reverse.1 ht)

theorem find?_reverse_of_not_mem {α : Type} (key : α → String) (l : List α) (k : String)
    (h : k ∉ l.map key) :
    l.reverse.find? (fun t => decide (key t = k)) = none := by
  rw [List.find?_eq_none]
  intro t ht hk
  exact h (List.mem_map.2 ⟨t, List.mem_reverse.1 ht, by simpa using hk⟩)

theorem mapGet_mapInit {V : Type} (m : Option (GoMap V)) (k : String) :
    (mapInit m).lookup k = mapGet m k := by
  cases m <;> simp [mapInit, mapGet]

theorem AddRole_lookup (a : ACL) (rs : List ACRole) :
    ∃ a', a.AddRole (rs.map some) = some a' ∧
      ∀ k, mapGet a'.roles k =
        match rs.reverse.find? (fun r => decide (r.ID = k)) with
        | some r => some r
        | none => mapGet a.roles k := by
  obtain ⟨m', hm', hk⟩ := addRoleLoop_lookup rs (mapInit a.roles)
  refine ⟨{ roles := some m' }, by simp [ACL.AddRole, hm'], fun k => ?_⟩
  simpa [mapGet, mapGet_mapInit] using hk k

theorem AddScope_lookup (acr : ACRole) (ss : List ACScope) :
    ∃ acr', acr.AddScope (ss.map some) = some acr' ∧
      acr'.ID = acr.ID ∧ acr'.Name = acr.Name ∧
      ∀ k, mapGet acr'.Scopes k =
        match ss.reverse.find? (fun sc => decide (sc.ID = k)) with
        | some sc => some (some sc)
        | none => mapGet acr.Scopes k := by
  obtain ⟨m', hm', hk⟩ := addScopeLoop_lookup ss (mapInit acr.Scopes)
  refine ⟨{ acr with Scopes := some m' }, by simp [ACRole.AddScope, hm'], rfl, rfl,
    fun k => ?_⟩
  simpa [mapGet, mapGet_mapInit] using hk k

/-! ## The claims -/

/-- C1: `IsRoleAllowed(roleIDs, scopeID, permission)` is true exactly when some
role ID of the list is a key of the role map whose stored role allows
`(scopeID, permission)`; unregistered IDs contribute nothing.  In the
end-to-end scenario `["manager"], "orders", "write"` is granted, while
`"delete"` and the role `"nonexistent"` are denied. -/
theorem C1_IsRoleAllowed_iff_registered_role_allows :
    (∀ (a : ACL) (roleIDs : List String) (scopeID permission : String),
      a.IsRoleAllowed roleIDs scopeID permission = true ↔
        ∃ roleID ∈ roleIDs, ∃ r, mapGet a.roles roleID = some r ∧
          r.IsAllowed scopeID permission = true) ∧
    (∃ A, scenarioACL = some A ∧
      A.IsRoleAllowed ["manager"] "orders" "write" = true ∧
      A.IsRoleAllowed ["manager"] "orders" "delete" = false ∧
      A.IsRoleAllowed ["nonexistent"] "orders" "write" = false) := by
  refine ⟨IsRoleAllowed_iff, ?_⟩
  refine ⟨{ roles := some (AList.singleton "manager"
    { ID := "manager", Name := "",
      Scopes := some (AList.singleton "orders" (some scenarioScope)) }) }, rfl, ?_, ?_, ?_⟩ <;>
    decide

/-- C2: `IsAllowed(scopeID, permission)` is false when the scope map has no
entry for `scopeID` (in particular when the map is unset), and when a scope is
stored under `scopeID` it is true exactly when `permission` is an element of
that scope's permission list (equality of strings).  An entry holding the nil
pointer is denied like a missing one. -/
theorem C2_IsAllowed_is_membership_in_stored_scope (r : ACRole)
    (scopeID permission : String) :
    (mapGet r.Scopes scopeID = none → r.IsAllowed scopeID permission = false) ∧
    (r.Scopes = none → r.IsAllowed scopeID permission = false) ∧
    (mapGet r.Scopes scopeID = some none → r.IsAllowed scopeID permission = false) ∧
    (∀ sc, mapGet r.Scopes scopeID = some (some sc) →
      (r.IsAllowed scopeID permission = true ↔ permission ∈ sc.Permissions)) := by
  have key := IsAllowed_iff r scopeID permission
  refine ⟨fun h => ?_, fun h => ?_, fun h => ?_, fun sc h => ?_⟩
  · rw [← Bool.not_eq_true, key, h]
    simp
  · rw [← Bool.not_eq_true, key, h]
    simp [mapGet]
  · rw [← Bool.not_eq_true, key, h]
    simp
  · rw [key, h]
    simp

/-- Witness of C2, on the zero-value role, on a role with a nil entry and on
the role of the scenario (where the capitalised `Write` is not `write`). -/
theorem C2_IsAllowed_is_membership_in_stored_scope_witness :
    scenarioRole.IsAllowed "orders" "write" = false ∧
    nilEntryRole.IsAllowed "a" "p" = false ∧
    (grantRole.IsAllowed "y" "p" = true ↔ "p" ∈ ["p"]) ∧
    (grantRole.IsAllowed "y" "P" = true ↔ "P" ∈ ["p"]) :=
  ⟨(C2_IsAllowed_is_membership_in_stored_scope scenarioRole "orders" "write").2.1 rfl,
   (C2_IsAllowed_is_membership_in_stored_scope nilEntryRole "a" "p").2.2.1 (by decide),
   (C2_IsAllowed_is_membership_in_stored_scope grantRole "y" "p").2.2.2
     { ID := "y", Name := "", Permissions := ["p"] } (by decide),
   (C2_IsAllowed_is_membership_in_stored_scope grantRole "y" "P").2.2.2
     { ID := "y", Name := "", Permissions := ["p"] } (by decide)⟩

/-- C3 (the code departs from the claim): the role `nilAndGrantRole` holds a
scope with permission `p`, yet `IsAllowedUniquely("p")` returns true only when
`range` visits that scope before the nil entry; visiting the nil entry first
dereferences it and panics.  Both sequences are visiting orders of the same
map, so the result depends on the order. -/
theorem C3_IsAllowedUniquely_nil_entry_order_dependent :
    IsOrder id ∧ IsOrder List.reverse ∧
    GrantsSomewhere nilAndGrantRole "p" ∧
    nilAndGrantRole.IsAllowedUniquely List.reverse "p" = some true ∧
    nilAndGrantRole.IsAllowedUniquely id "p" = none := by
  refine ⟨fun l => List.Perm.refl l, fun l => List.reverse_perm l, ?_, by decide, by decide⟩
  exact ⟨"b", { ID := "b", Name := "", Permissions := ["p"] }, by decide, by decide⟩

/-- C4 (the code departs from the claim): in the registry `nilEntryACL` the
role `y` is registered and `y.IsAllowedUniquely("p")` is true, yet
`IsRoleAllowedUniquely(["x", "y"], "p")` does not return true: the role `x`,
visited first, has a nil scope entry and `IsAllowedUniquely` panics on it.
With the list `["y", "x"]` the call returns true. -/
theorem C4_IsRoleAllowedUniquely_panics_before_granting_role :
    ∃ A, nilEntryACL = some A ∧
      mapGet A.roles "x" = some nilEntryRole ∧
      mapGet A.roles "y" = some grantRole ∧
      grantRole.IsAllowedUniquely id "p" = some true ∧
      grantRole.IsAllowedUniquely List.reverse "p" = some true ∧
      A.IsRoleAllowedUniquely (fun _ => id) ["x", "y"] "p" = none ∧
      A.IsRoleAllowedUniquely (fun _ => List.reverse) ["x", "y"] "p" = none ∧
      A.IsRoleAllowedUniquely (fun _ => id) ["x"] "p" = none ∧
      A.IsRoleAllowedUniquely (fun _ => id) ["y", "x"] "p" = some true := by
  refine ⟨{ roles := some (((∅ : GoMap ACRole).insert "x" nilEntryRole).insert "y" grantRole) },
    rfl, rfl, rfl, ?_, ?_, ?_, ?_, ?_, ?_⟩ <;> decide

/-- C5: default deny.  On the zero-value `ACL`, and on the `ACL` whose map was
initialised by an `AddRole()` without arguments, `IsRoleAllowed` and
`IsRoleAllowedUniquely` return false for every list of role IDs, scope and
permission and every visiting order; on any `ACL` they return false when the
list is empty or names only unregistered IDs. -/
theorem C5_default_deny (a : ACL)
    (pick : Nat → List (Entry (Option ACScope)) → List (Entry (Option ACScope)))
    (roleIDs : List String) (scopeID permission : String) :
    (({ roles := none } : ACL).IsRoleAllowed roleIDs scopeID permission = false ∧
      ({ roles := none } : ACL).IsRoleAllowedUniquely pick roleIDs permission = some false) ∧
    (ACL.AddRole { roles := none } [] = some { roles := some ∅ } ∧
      ({ roles := some ∅ } : ACL).IsRoleAllowed roleIDs scopeID permission = false ∧
      ({ roles := some ∅ } : ACL).IsRoleAllowedUniquely pick roleIDs permission = some false) ∧
    (a.IsRoleAllowed [] scopeID permission = false ∧
      a.IsRoleAllowedUniquely pick [] permission = some false) ∧
    ((∀ roleID ∈ roleIDs, mapGet a.roles roleID = none) →
      a.IsRoleAllowed roleIDs scopeID permission = false ∧
      a.IsRoleAllowedUniquely pick roleIDs permission = some false) := by
  refine ⟨⟨?_, ?_⟩, ⟨rfl, ?_, ?_⟩, ⟨rfl, rfl⟩, fun h => ⟨?_, ?_⟩⟩
  · exact IsRoleAllowed_unregistered _ _ _ _ (fun _ _ => rfl)
  · exact isRoleAllowedUniquelyFrom_unregistered _ _ _ _ _ (fun _ _ => rfl)
  · exact IsRoleAllowed_unregistered _ _ _ _ (fun _ _ => rfl)
  · exact isRoleAllowedUniquelyFrom_unregistered _ _ _ _ _ (fun _ _ => rfl)
  · exact IsRoleAllowed_unregistered _ _ _ _ h
  · exact isRoleAllowedUniquelyFrom_unregistered _ _ _ _ _ h

/-- Witness of C5: the registry of the scenario, asked about the unregistered
roles `guest` and `nobody`. -/
theorem C5_default_deny_witness :
    (∀ roleID ∈ ["guest", "nobody"],
      mapGet (ACL.mk (some (AList.singleton "manager" scenarioRole))).roles roleID = none) ∧
    (ACL.mk (some (AList.singleton "manager" scenarioRole))).IsRoleAllowed
      ["guest", "nobody"] "orders" "write" = false ∧
    (ACL.mk (some (AList.singleton "manager" scenarioRole))).IsRoleAllowedUniquely
      (fun _ => id) ["guest", "nobody"] "write" = some false :=
  ⟨by decide,
   (C5_default_deny (ACL.mk (some (AList.singleton "manager" scenarioRole))) (fun _ => id)
     ["guest", "nobody"] "orders" "write").2.2.2 (by decide)⟩

/-- C6: role overwrite.  When `r1.ID = r2.ID`, `AddRole(r1)` followed by
`AddRole(r2)` and the single call `AddRole(r1, r2)` both return, with the same
registry; in it the entry under that ID is `r2`, so `IsRoleAllowed([r2.ID], ..)`
is `r2.IsAllowed(..)` and `IsRoleAllowedUniquely([r2.ID], ..)` is
`r2.IsAllowedUniquely(..)` (same visiting order); a scope that `r2` does not
hold is not reachable through that ID whatever `r1` held; entries under every
other role ID are as before. -/
theorem C6_AddRole_last_write_wins (a : ACL) (r1 r2 : ACRole) (h : r1.ID = r2.ID)
    (pick : Nat → List (Entry (Option ACScope)) → List (Entry (Option ACScope)))
    (scopeID permission : String) :
    ∃ a', (a.AddRole [some r1]).bind (fun a1 => a1.AddRole [some r2]) = some a' ∧
      a.AddRole [some r1, some r2] = some a' ∧
      mapGet a'.roles r2.ID = some r2 ∧
      a'.IsRoleAllowed [r2.ID] scopeID permission = r2.IsAllowed scopeID permission ∧
      a'.IsRoleAllowedUniquely pick [r2.ID] permission =
        r2.IsAllowedUniquely (pick 0) permission ∧
      (mapGet r2.Scopes scopeID = none →
        a'.IsRoleAllowed [r2.ID] scopeID permission = false) ∧
      (∀ k, k ≠ r2.ID → mapGet a'.roles k = mapGet a.roles k) := by
  have hget : mapGet (some (((mapInit a.roles).insert r1.ID r1).insert r2.ID r2)) r2.ID
      = some r2 := by
    simp [mapGet, AList.lookup_insert]
  have hallowed : ({ roles := some (((mapInit a.roles).insert r1.ID r1).insert r2.ID r2) } :
      ACL).IsRoleAllowed [r2.ID] scopeID permission = r2.IsAllowed scopeID permission := by
    simp only [ACL.IsRoleAllowed, hget]
    cases r2.IsAllowed scopeID permission <;> rfl
  refine ⟨{ roles := some (((mapInit a.roles).insert r1.ID r1).insert r2.ID r2) },
    rfl, rfl, hget, hallowed, ?_, fun hnone => ?_, fun k hk => ?_⟩
  · simp only [ACL.IsRoleAllowedUniquely, isRoleAllowedUniquelyFrom, hget]
    rcases hres : r2.IsAllowedUniquely (pick 0) permission with _ | b
    · rfl
    · cases b <;> rfl
  · rw [hallowed, ← Bool.not_eq_true, IsAllowed_iff, hnone]
    simp
  · have hk1 : k ≠ r1.ID := by rw [h]; exact hk
    simp [mapGet, AList.lookup_insert_ne hk, AList.lookup_insert_ne hk1, mapGet_mapInit]

/-- Witness of C6: the role `manager` holding the scope `orders` is replaced by
a role `manager` without scopes. -/
theorem C6_AddRole_last_write_wins_witness :
    ACRole.ID { ID := "manager", Name := "",
                Scopes := some (AList.singleton "orders" (some scenarioScope)) } =
      scenarioRole.ID ∧
    ∃ a', (ACL.AddRole { roles := none }
        [some { ID := "manager", Name := "",
                Scopes := some (AList.singleton "orders" (some scenarioScope)) }]).bind
          (fun a1 => a1.AddRole [some scenarioRole]) = some a' ∧
      ACL.AddRole { roles := none }
        [some { ID := "manager", Name := "",
                Scopes := some (AList.singleton "orders" (some scenarioScope)) },
         some scenarioRole] = some a' ∧
      mapGet a'.roles scenarioRole.ID = some scenarioRole ∧
      a'.IsRoleAllowed [scenarioRole.ID] "orders" "write" =
        scenarioRole.IsAllowed "orders" "write" ∧
      a'.IsRoleAllowedUniquely (fun _ => id) [scenarioRole.ID] "write" =
        scenarioRole.IsAllowedUniquely id "write" ∧
      (mapGet scenarioRole.Scopes "orders" = none →
        a'.IsRoleAllowed [scenarioRole.ID] "orders" "write" = false) ∧
      (∀ k, k ≠ scenarioRole.ID →
        mapGet a'.roles k = mapGet ({ roles := none } : ACL).roles k) :=
  ⟨rfl, C6_AddRole_last_write_wins { roles := none }
    { ID := "manager", Name := "",
      Scopes := some (AList.singleton "orders" (some scenarioScope)) }
    scenarioRole rfl (fun _ => id) "orders" "write"⟩

/-- C7: scope overwrite.  `AddScope` with non-nil scopes returns, keeps `ID`
and `Name`, maps the ID of every passed scope that has no later scope of the
same ID in the argument list to that scope, and leaves every key that is not a
passed ID as it was (absent keys of an unset map stay absent).  After
`AddScope(s1)` then `AddScope(s2)` with `s1.ID = s2.ID`,
`IsAllowed(s2.ID, p)` is true exactly when `p` is in `s2.Permissions`. -/
theorem C7_AddScope_last_write_wins (r : ACRole) (ss : List ACScope) (s1 s2 : ACScope)
    (p : String) :
    (∃ r', r.AddScope (ss.map some) = some r' ∧ r'.ID = r.ID ∧ r'.Name = r.Name ∧
      (∀ pre sc post, ss = pre ++ sc :: post → (∀ t ∈ post, t.ID ≠ sc.ID) →
        mapGet r'.Scopes sc.ID = some (some sc)) ∧
      (∀ k, k ∉ ss.map ACScope.ID → mapGet r'.Scopes k = mapGet r.Scopes k)) ∧
    (s1.ID = s2.ID →
      ∃ r'', (r.AddScope [some s1]).bind (fun r1 => r1.AddScope [some s2]) = some r'' ∧
        mapGet r''.Scopes s2.ID = some (some s2) ∧
        (r''.IsAllowed s2.ID p = true ↔ p ∈ s2.Permissions) ∧
        (p ∉ s2.Permissions → r''.IsAllowed s2.ID p = false)) := by
  constructor
  · obtain ⟨r', hr', hid, hname, hk⟩ := AddScope_lookup r ss
    refine ⟨r', hr', hid, hname, fun pre sc post hss hpost => ?_, fun k hnot => ?_⟩
    · rw [hk sc.ID, find?_reverse_of_last ACScope.ID ss pre post sc hss hpost]
    · rw [hk k, find?_reverse_of_not_mem ACScope.ID ss k hnot]
  · intro _
    have hget : mapGet (some (((mapInit r.Scopes).insert s1.ID (some s1)).insert s2.ID
        (some s2))) s2.ID = some (some s2) := by
      simp [mapGet, AList.lookup_insert]
    have hiff := IsAllowed_iff
      { r with Scopes := some (((mapInit r.Scopes).insert s1.ID (some s1)).insert s2.ID
          (some s2)) } s2.ID p
    simp only [hget, Option.some.injEq, exists_eq_left'] at hiff
    refine ⟨{ r with Scopes := some (((mapInit r.Scopes).insert s1.ID (some s1)).insert s2.ID
      (some s2)) }, rfl, hget, hiff, fun hp => ?_⟩
    rw [← Bool.not_eq_true, hiff]
    exact hp

/-- Witness of C7: on the zero-value role, `AddScope(orders{read, write})` then
`AddScope(orders{read})` leaves `write` denied. -/
theorem C7_AddScope_last_write_wins_witness :
    scenarioScope.ID = readOnlyScope.ID ∧ "write" ∉ readOnlyScope.Permissions ∧
    ∃ r'', (scenarioRole.AddScope [some scenarioScope]).bind
        (fun r1 => r1.AddScope [some readOnlyScope]) = some r'' ∧
      r''.IsAllowed "orders" "write" = false := by
  obtain ⟨r'', h1, _, _, h4⟩ :=
    (C7_AddScope_last_write_wins scenarioRole [] scenarioScope readOnlyScope "write").2 rfl
  exact ⟨rfl, by decide, r'', h1, h4 (by decide)⟩

/-- C8: scoped isolation.  If the role holds scopes `A` and `B` under their
distinct IDs and `p` is in `A.Permissions` but not in `B.Permissions`, then
`IsAllowed(B.ID, p)` is false while `IsAllowed(A.ID, p)` is true; and
`IsAllowed(id, p)` is false for every `id` that is not a key of the scope map,
whatever the other scopes contain. -/
theorem C8_scoped_isolation (r : ACRole) (A B : ACScope) (id p : String) :
    (mapGet r.Scopes A.ID = some (some A) → mapGet r.Scopes B.ID = some (some B) →
      A.ID ≠ B.ID → p ∈ A.Permissions → p ∉ B.Permissions →
      r.IsAllowed B.ID p = false ∧ r.IsAllowed A.ID p = true) ∧
    (mapGet r.Scopes id = none → r.IsAllowed id p = false) := by
  refine ⟨fun hA hB _ hpA hpB => ⟨?_, ?_⟩, fun hnone => ?_⟩
  · rw [← Bool.not_eq_true, IsAllowed_iff, hB]
    rintro ⟨sc, hsc, hp⟩
    simp only [Option.some.injEq] at hsc
    exact hpB (hsc ▸ hp)
  · rw [IsAllowed_iff]
    exact ⟨A, hA, hpA⟩
  · rw [← Bool.not_eq_true, IsAllowed_iff, hnone]
    simp

/-- Witness of C8: in `twoScopeRole` the permission `write` of scope `orders`
is not visible under `invoices`, nor under the absent scope `stock`. -/
theorem C8_scoped_isolation_witness :
    (twoScopeRole.IsAllowed invoiceScope.ID "write" = false ∧
      twoScopeRole.IsAllowed scenarioScope.ID "write" = true) ∧
    twoScopeRole.IsAllowed "stock" "write" = false :=
  ⟨(C8_scoped_isolation twoScopeRole scenarioScope invoiceScope "stock" "write").1
      rfl rfl (by decide) (by decide) (by decide),
   (C8_scoped_isolation twoScopeRole scenarioScope invoiceScope "stock" "write").2 rfl⟩

/-- C9: `AddPermission(p...)` leaves the permission list `L ++ p`: the first
`len(L)` elements are `L`, the rest is `p` in argument order, every string
occurs as often as in `L` and `p` together (no deduplication), and `ID` and
`Name` are unchanged. -/
theorem C9_AddPermission_appends (s : ACScope) (p : List String) (q : String) :
    (s.AddPermission p).Permissions = s.Permissions ++ p ∧
    (s.AddPermission p).Permissions.take s.Permissions.length = s.Permissions ∧
    (s.AddPermission p).Permissions.drop s.Permissions.length = p ∧
    (s.AddPermission p).Permissions.length = s.Permissions.length + p.length ∧
    (s.AddPermission p).Permissions.count q = s.Permissions.count q + p.count q ∧
    (s.AddPermission []).Permissions = s.Permissions ∧
    (s.AddPermission p).ID = s.ID ∧ (s.AddPermission p).Name = s.Name := by
  have hcode : (s.AddPermission p).Permissions = s.Permissions ++ p := by
    simp [ACScope.AddPermission, slicesConcat]
  have hnil : (s.AddPermission []).Permissions = s.Permissions := by
    simp [ACScope.AddPermission, slicesConcat]
  refine ⟨hcode, ?_, ?_, ?_, ?_, hnil, rfl, rfl⟩
  · rw [hcode, List.take_left']
    rfl
  · rw [hcode, List.drop_left']
    rfl
  · rw [hcode, List.length_append]
  · rw [hcode, List.count_append]

/-- For an argument `p` with storage of its own, `RemPermission(p...)` leaves
the list obtained by processing `p` left to right and erasing, for each string,
its first occurrence in the current list when there is one; the result is a
sublist of the initial list, and every string `q` occurs
`count q L - count q p` times afterwards (truncated subtraction); `ID` and
`Name` are unchanged. -/
theorem RemPermission_erases_first_occurrences (s : ACScope) (p : List String)
    (q : String) :
    (s.RemPermission p).Permissions = specRemovePermission s.Permissions p ∧
    (s.RemPermission p).Permissions.Sublist s.Permissions ∧
    (s.RemPermission p).Permissions.count q = s.Permissions.count q - p.count q ∧
    (s.RemPermission p).ID = s.ID ∧ (s.RemPermission p).Name = s.Name := by
  have hcode : (s.RemPermission p).Permissions = p.foldl List.erase s.Permissions :=
    foldl_remPermissionStep_eq p s.Permissions
  refine ⟨?_, ?_, ?_, rfl, rfl⟩
  · rw [hcode, specRemovePermission, foldl_specEraseFirst_eq]
  · rw [hcode]
    exact foldl_erase_sublist p s.Permissions
  · rw [hcode]
    exact count_foldl_erase p s.Permissions q

/-! ## Deletion loops -/

theorem mapGet_mapDelete {V : Type} (m : Option (GoMap V)) (x k : String) :
    mapGet (mapDelete m x) k = if k = x then none else mapGet m k := by
  cases m with
  | none => simp [mapDelete, mapGet]
  | some t =>
    by_cases h : k = x
    · subst h
      simp [mapDelete, mapGet, AList.lookup_erase]
    · simp [mapDelete, mapGet, h, AList.lookup_erase_ne h]

theorem mapDelete_of_absent {V : Type} (m : Option (GoMap V)) (x : String)
    (h : mapGet m x = none) : mapDelete m x = m := by
  cases m with
  | none => rfl
  | some t =>
    have hx : x ∉ t.entries.keys := by
      have := AList.lookup_eq_none.1 h
      rwa [AList.mem_keys] at this
    simp only [mapDelete]
    congr 1
    exact AList.ext (List.kerase_of_not_mem_keys hx)

theorem mapDelete_mapDelete {V : Type} (m : Option (GoMap V)) (x : String) :
    mapDelete (mapDelete m x) x = mapDelete m x :=
  mapDelete_of_absent _ _ (by simp [mapGet_mapDelete])

theorem mapGet_foldl_mapDelete {V : Type} (IDs : List String) (m : Option (GoMap V))
    (k : String) :
    mapGet (IDs.foldl mapDelete m) k = if k ∈ IDs then none else mapGet m k := by
  induction IDs generalizing m with
  | nil => simp
  | cons x xs ih =>
    rw [List.foldl_cons, ih, mapGet_mapDelete]
    by_cases hk : k ∈ xs
    · simp [hk]
    · by_cases hx : k = x
      · simp [hx]
      · simp [hk, hx]

theorem foldl_mapDelete_none {V : Type} (IDs : List String) :
    IDs.foldl mapDelete (none : Option (GoMap V)) = none := by
  induction IDs with
  | nil => rfl
  | cons x xs ih => simpa [mapDelete] using ih

/-! ## The claims, continued -/

/-- C11: duplicate permission handling.  `AddPermission(x)` twice followed by
`RemPermission(x)` once leaves the count of `x` one higher than before and the
count of every other string as it was; when `x` was not in the list, the list
afterwards is the old list followed by a single `x`. -/
theorem C11_add_twice_remove_once (s : ACScope) (x : String) :
    ((((s.AddPermission [x]).AddPermission [x]).RemPermission [x]).Permissions.count x
      = s.Permissions.count x + 1) ∧
    (∀ q, q ≠ x →
      (((s.AddPermission [x]).AddPermission [x]).RemPermission [x]).Permissions.count q
        = s.Permissions.count q) ∧
    (x ∉ s.Permissions →
      (((s.AddPermission [x]).AddPermission [x]).RemPermission [x]).Permissions
          = s.Permissions ++ [x] ∧
      (((s.AddPermission [x]).AddPermission [x]).RemPermission [x]).Permissions.count x
          = 1) ∧
    (((s.AddPermission [x]).AddPermission [x]).RemPermission [x]).ID = s.ID := by
  have hcode : (((s.AddPermission [x]).AddPermission [x]).RemPermission [x]).Permissions
      = (s.Permissions ++ [x, x]).erase x := by
    simp [ACScope.RemPermission, ACScope.AddPermission, slicesConcat,
      remPermissionStep_eq_erase]
  refine ⟨?_, fun q hq => ?_, fun hx => ?_, rfl⟩
  · rw [hcode, List.count_erase_self, List.count_append]
    simp
  · rw [hcode, List.count_erase_of_ne hq, List.count_append]
    have h1 : (x == q) = false := by simpa using fun h : x = q => hq h.symm
    simp [List.count_cons, h1]
  · have hlist : (s.Permissions ++ [x, x]).erase x = s.Permissions ++ [x] := by
      rw [List.erase_append_right _ hx]
      simp
    rw [hcode, hlist]
    refine ⟨rfl, ?_⟩
    rw [List.count_append, List.count_eq_zero_of_not_mem hx]
    simp

/-- Witness of C11: on the scope of the scenario, which has no `x`. -/
theorem C11_add_twice_remove_once_witness :
    "x" ∉ scenarioScope.Permissions ∧
    (((scenarioScope.AddPermission ["x"]).AddPermission ["x"]).RemPermission ["x"]).Permissions
      = scenarioScope.Permissions ++ ["x"] ∧
    (((scenarioScope.AddPermission ["x"]).AddPermission ["x"]).RemPermission
      ["x"]).Permissions.count "x" = 1 :=
  ⟨by decide, (C11_add_twice_remove_once scenarioScope "x").2.2.1 (by decide)⟩

/-- C12: idempotent scope removal.  `RemScopeByID(ID)` applied twice (in two
calls or in one) gives the same role as applying it once; with an `ID` that is
not a key, and on an unset scope map, the role is unchanged; after
`RemScopeByID(IDs...)` every key outside `IDs` reads as before and every key
in `IDs` is absent, so `IsAllowed` on it is false. -/
theorem C12_RemScopeByID_idempotent (r : ACRole) (ID : String) (IDs : List String)
    (k p : String) :
    (r.RemScopeByID [ID]).RemScopeByID [ID] = r.RemScopeByID [ID] ∧
    r.RemScopeByID [ID, ID] = r.RemScopeByID [ID] ∧
    (mapGet r.Scopes ID = none → r.RemScopeByID [ID] = r) ∧
    (r.Scopes = none → r.RemScopeByID IDs = r) ∧
    (k ∉ IDs → mapGet (r.RemScopeByID IDs).Scopes k = mapGet r.Scopes k) ∧
    (k ∈ IDs → mapGet (r.RemScopeByID IDs).Scopes k = none ∧
      (r.RemScopeByID IDs).IsAllowed k p = false) ∧
    (r.RemScopeByID IDs).ID = r.ID ∧ (r.RemScopeByID IDs).Name = r.Name := by
  refine ⟨?_, ?_, fun h => ?_, fun h => ?_, fun hk => ?_, fun hk => ?_, rfl, rfl⟩
  · simp [ACRole.RemScopeByID, mapDelete_mapDelete]
  · simp [ACRole.RemScopeByID, mapDelete_mapDelete]
  · cases r
    simp only [ACRole.RemScopeByID, List.foldl_cons, List.foldl_nil] at h ⊢
    rw [mapDelete_of_absent _ _ h]
  · cases r
    simp only at h
    subst h
    simp [ACRole.RemScopeByID, foldl_mapDelete_none]
  · simp [ACRole.RemScopeByID, mapGet_foldl_mapDelete, hk]
  · have hnone : mapGet (r.RemScopeByID IDs).Scopes k = none := by
      simp [ACRole.RemScopeByID, mapGet_foldl_mapDelete, hk]
    refine ⟨hnone, ?_⟩
    rw [← Bool.not_eq_true, IsAllowed_iff, hnone]
    simp

/-- Witness of C12: removing `orders` from `twoScopeRole` keeps `invoices`,
and removing the absent `stock` changes nothing. -/
theorem C12_RemScopeByID_idempotent_witness :
    twoScopeRole.RemScopeByID ["stock"] = twoScopeRole ∧
    (scenarioRole.RemScopeByID ["orders"] = scenarioRole) ∧
    (mapGet (twoScopeRole.RemScopeByID ["orders"]).Scopes "invoices"
      = mapGet twoScopeRole.Scopes "invoices") ∧
    (mapGet (twoScopeRole.RemScopeByID ["orders"]).Scopes "orders" = none ∧
      (twoScopeRole.RemScopeByID ["orders"]).IsAllowed "orders" "write" = false) :=
  ⟨(C12_RemScopeByID_idempotent twoScopeRole "stock" [] "k" "p").2.2.1 rfl,
   (C12_RemScopeByID_idempotent scenarioRole "orders" ["orders"] "k" "p").2.2.2.1 rfl,
   (C12_RemScopeByID_idempotent twoScopeRole "orders" ["orders"] "invoices"
      "write").2.2.2.2.1 (by decide),
   (C12_RemScopeByID_idempotent twoScopeRole "orders" ["orders"] "orders"
      "write").2.2.2.2.2.1 (by decide)⟩

/-- C13: after `RemRoleByID(IDs...)` (also on the zero-value `ACL`) no ID of the
list is a key of the role map, every other key reads as before, and removing an
unregistered ID changes nothing; `IsRoleAllowed` and `IsRoleAllowedUniquely`
are false on every list all of whose elements were just removed. -/
theorem C13_RemRoleByID_frame (a : ACL) (ID : String) (IDs roleIDs : List String)
    (k scopeID permission : String)
    (pick : Nat → List (Entry (Option ACScope)) → List (Entry (Option ACScope))) :
    (k ∈ IDs → mapGet (a.RemRoleByID IDs).roles k = none) ∧
    (k ∉ IDs → mapGet (a.RemRoleByID IDs).roles k = mapGet a.roles k) ∧
    (mapGet a.roles ID = none → a.RemRoleByID [ID] = a) ∧
    (a.roles = none → a.RemRoleByID IDs = a) ∧
    ((∀ roleID ∈ roleIDs, roleID ∈ IDs) →
      (a.RemRoleByID IDs).IsRoleAllowed roleIDs scopeID permission = false ∧
      (a.RemRoleByID IDs).IsRoleAllowedUniquely pick roleIDs permission = some false) := by
  have hget : ∀ x, x ∈ IDs → mapGet (a.RemRoleByID IDs).roles x = none := fun x hx => by
    simp [ACL.RemRoleByID, mapGet_foldl_mapDelete, hx]
  refine ⟨hget k, fun hk => ?_, fun h => ?_, fun h => ?_, fun hall => ⟨?_, ?_⟩⟩
  · simp [ACL.RemRoleByID, mapGet_foldl_mapDelete, hk]
  · cases a
    simp only [ACL.RemRoleByID, List.foldl_cons, List.foldl_nil] at h ⊢
    rw [mapDelete_of_absent _ _ h]
  · cases a
    simp only at h
    subst h
    simp [ACL.RemRoleByID, foldl_mapDelete_none]
  · exact IsRoleAllowed_unregistered _ _ _ _ (fun x hx => hget x (hall x hx))
  · exact isRoleAllowedUniquelyFrom_unregistered _ _ _ _ _ (fun x hx => hget x (hall x hx))

/-- Witness of C13: `manager` is removed from `twoRoleACL`, `clerk` stays, and
removing the unregistered `ghost` changes nothing. -/
theorem C13_RemRoleByID_frame_witness :
    mapGet (twoRoleACL.RemRoleByID ["manager"]).roles "manager" = none ∧
    mapGet (twoRoleACL.RemRoleByID ["manager"]).roles "clerk" = mapGet twoRoleACL.roles "clerk" ∧
    twoRoleACL.RemRoleByID ["ghost"] = twoRoleACL ∧
    (ACL.mk none).RemRoleByID ["manager"] = ACL.mk none ∧
    ((twoRoleACL.RemRoleByID ["manager"]).IsRoleAllowed ["manager", "manager"] "orders" "write"
        = false ∧
      (twoRoleACL.RemRoleByID ["manager"]).IsRoleAllowedUniquely (fun _ => id)
        ["manager", "manager"] "write" = some false) :=
  ⟨(C13_RemRoleByID_frame twoRoleACL "ghost" ["manager"] ["manager", "manager"] "manager"
      "orders" "write" (fun _ => id)).1 (by decide),
   (C13_RemRoleByID_frame twoRoleACL "ghost" ["manager"] ["manager", "manager"] "clerk"
      "orders" "write" (fun _ => id)).2.1 (by decide),
   (C13_RemRoleByID_frame twoRoleACL "ghost" ["manager"] ["manager", "manager"] "clerk"
      "orders" "write" (fun _ => id)).2.2.1 rfl,
   (C13_RemRoleByID_frame (ACL.mk none) "ghost" ["manager"] ["manager", "manager"] "clerk"
      "orders" "write" (fun _ => id)).2.2.2.1 rfl,
   (C13_RemRoleByID_frame twoRoleACL "ghost" ["manager"] ["manager", "manager"] "clerk"
      "orders" "write" (fun _ => id)).2.2.2.2 (by decide)⟩

/-- C14: `NewRoleWithUniquePermissions(roleID, name, permissions)` returns a
role with that ID and name whose scope map has exactly one entry, keyed by
`roleID`, holding a scope with `ID = roleID` and the given permissions; so for
every `p`, `IsAllowedUniquely(p)` (any visiting order) and `IsAllowed(roleID, p)`
both say whether `p` is an element of `permissions`, and `IsAllowed(s, p)` is
false for `s ≠ roleID`.  For `("admin", "Admin", ["deploy", "rollback"])`,
`IsAllowedUniquely("deploy")` is true and `IsAllowedUniquely("other")` false. -/
theorem C14_NewRoleWithUniquePermissions_single_scope :
    (∀ (roleID name : String) (permissions : List String) (p s : String)
        (order : List (Entry (Option ACScope)) → List (Entry (Option ACScope))),
      ∃ r, NewRoleWithUniquePermissions roleID name permissions = some r ∧
        r.ID = roleID ∧ r.Name = name ∧
        mapEntries r.Scopes
          = [⟨roleID, some { ID := roleID, Name := "", Permissions := permissions }⟩] ∧
        (r.IsAllowed roleID p = true ↔ p ∈ permissions) ∧
        (IsOrder order → r.IsAllowedUniquely order p = some (r.IsAllowed roleID p)) ∧
        (s ≠ roleID → r.IsAllowed s p = false)) ∧
    (∃ r, NewRoleWithUniquePermissions "admin" "Admin" ["deploy", "rollback"] = some r ∧
      r.IsAllowedUniquely id "deploy" = some true ∧
      r.IsAllowedUniquely id "other" = some false) := by
  constructor
  · intro roleID name permissions p s order
    have hent : mapEntries (some (AList.singleton roleID
        (some ({ ID := roleID, Name := "", Permissions := permissions } : ACScope))))
        = [⟨roleID, some { ID := roleID, Name := "", Permissions := permissions }⟩] := rfl
    have hget : ∀ k, mapGet (some (AList.singleton roleID
        (some ({ ID := roleID, Name := "", Permissions := permissions } : ACScope)))) k
        = if k = roleID then some (some { ID := roleID, Name := "", Permissions := permissions })
          else none := by
      intro k
      rw [← AList.insert_empty]
      by_cases hk : k = roleID
      · subst hk
        simp only [mapGet, AList.lookup_insert, if_true]
      · simp only [mapGet, AList.lookup_insert_ne hk, AList.lookup_empty, if_neg hk]
    refine ⟨ACRole.mk roleID name (some (AList.singleton roleID
        (some { ID := roleID, Name := "", Permissions := permissions }))),
      rfl, rfl, rfl, hent, ?_, fun hord => ?_, fun hs => ?_⟩
    · rw [IsAllowed_iff]
      simp [hget]
    · have hperm := hord (mapEntries (some (AList.singleton roleID
        (some ({ ID := roleID, Name := "", Permissions := permissions } : ACScope)))))
      rw [hent, List.perm_singleton] at hperm
      simp only [ACRole.IsAllowedUniquely, hent, hperm, rangeAllowedUniquely, ACRole.IsAllowed,
        scopeAt, hget]
      by_cases hc : slicesContains permissions p = true
      · simp [hc]
      · simp [hc]
    · rw [← Bool.not_eq_true, IsAllowed_iff]
      simp [hget, hs]
  · exact ⟨ACRole.mk "admin" "Admin" (some (AList.singleton "admin"
        (some { ID := "admin", Name := "", Permissions := ["deploy", "rollback"] }))),
      rfl, by decide, by decide⟩

/-- Witness of C14: the role `admin` under the reversed visiting order. -/
theorem C14_NewRoleWithUniquePermissions_single_scope_witness :
    IsOrder List.reverse ∧
    ∃ r, NewRoleWithUniquePermissions "admin" "Admin" ["deploy", "rollback"] = some r ∧
      r.IsAllowedUniquely List.reverse "rollback" = some (r.IsAllowed "admin" "rollback") ∧
      r.IsAllowed "orders" "rollback" = false := by
  obtain ⟨r, h1, _, _, _, _, h6, h7⟩ := C14_NewRoleWithUniquePermissions_single_scope.1
    "admin" "Admin" ["deploy", "rollback"] "rollback" "orders" List.reverse
  exact ⟨fun l => List.reverse_perm l, r, h1, h6 (fun l => List.reverse_perm l),
    h7 (by decide)⟩

/-! ## Which calls return -/

theorem addRoleLoop_isSome_iff (roles : List (Option ACRole)) (m : GoMap ACRole) :
    (addRoleLoop m roles).isSome = true ↔ none ∉ roles := by
  induction roles generalizing m with
  | nil => simp [addRoleLoop]
  | cons r rest ih =>
    cases r with
    | none => simp [addRoleLoop]
    | some role => simpa [addRoleLoop] using ih (m.insert role.ID role)

theorem addScopeLoop_isSome_iff (Scopes : List (Option ACScope)) (m : GoMap (Option ACScope)) :
    (addScopeLoop m Scopes).isSome = true ↔ none ∉ Scopes := by
  induction Scopes generalizing m with
  | nil => simp [addScopeLoop]
  | cons v rest ih =>
    cases v with
    | none => simp [addScopeLoop]
    | some sc => simpa [addScopeLoop] using ih (m.insert sc.ID (some sc))

theorem AddRole_isSome_iff (a : ACL) (roles : List (Option ACRole)) :
    (a.AddRole roles).isSome = true ↔ none ∉ roles := by
  rw [← addRoleLoop_isSome_iff roles (mapInit a.roles)]
  unfold ACL.AddRole
  cases addRoleLoop (mapInit a.roles) roles <;> simp

theorem AddScope_isSome_iff (acr : ACRole) (Scopes : List (Option ACScope)) :
    (acr.AddScope Scopes).isSome = true ↔ none ∉ Scopes := by
  rw [← addScopeLoop_isSome_iff Scopes (mapInit acr.Scopes)]
  unfold ACRole.AddScope
  cases addScopeLoop (mapInit acr.Scopes) Scopes <;> simp

theorem remPermissionStepChecked_eq (perms : List String) (v : String) :
    remPermissionStepChecked perms v = some (remPermissionStep perms v) := by
  unfold remPermissionStepChecked remPermissionStep slicesIndex slicesDeleteChecked slicesDelete
  by_cases h : v ∈ perms
  · obtain ⟨n, h1, h2, _⟩ := (slicesIndexFrom_cases perms v 0).1 h
    have hn : slicesIndexFrom 0 perms v = (n : Int) := by simpa using h1
    simp only [hn]
    rw [if_pos (by omega), if_pos (by omega)]
    rw [if_pos]
    have : (n : Int).toNat = n := Int.toNat_ofNat n
    omega
  · rw [(slicesIndexFrom_cases perms v 0).2 h]
    simp

theorem remPermissionLoopChecked_eq (p perms : List String) :
    remPermissionLoopChecked perms p = some (p.foldl remPermissionStep perms) := by
  induction p generalizing perms with
  | nil => rfl
  | cons v rest ih =>
    simp only [remPermissionLoopChecked, remPermissionStepChecked_eq, List.foldl_cons]
    exact ih _

theorem RemPermissionChecked_eq (s : ACScope) (p : List String) :
    s.RemPermissionChecked p = some (s.RemPermission p) := by
  simp [ACScope.RemPermissionChecked, ACScope.RemPermission, remPermissionLoopChecked_eq]

/-- C15 (counterexample): not every call returns.  `AddRole` with a nil role
and `AddScope` with a nil scope panic when they read the `ID` of the argument,
and `IsAllowedUniquely`, hence `IsRoleAllowedUniquely`, panics on a scope map
entry that holds the nil pointer. -/
theorem C15_nil_argument_or_entry_panics :
    ACL.AddRole { roles := none } [none] = none ∧
    ACL.AddRole { roles := none } [some managerRole, none] = none ∧
    scenarioRole.AddScope [none] = none ∧
    managerRole.AddScope [some invoiceScope, none] = none ∧
    nilEntryRole.IsAllowedUniquely id "p" = none ∧
    (∃ A, nilEntryACL = some A ∧
      A.IsRoleAllowedUniquely (fun _ => id) ["x"] "p" = none) := by
  refine ⟨rfl, rfl, rfl, rfl, by decide,
    { roles := some (((∅ : GoMap ACRole).insert "x" nilEntryRole).insert "y" grantRole) },
    rfl, by decide⟩

/-- C15 (amended): on every receiver state, `AddRole` returns exactly when no
passed role is nil and `AddScope` exactly when no passed scope is nil;
`RemPermission` never fails the bounds check of `slices.Delete`;
`IsAllowedUniquely` returns when the scope map has no nil entry, and
`IsRoleAllowedUniquely` when no registered role named in the list has one.
`RemRoleByID`, `IsRoleAllowed`, `RemScopeByID`, `IsAllowed` and `AddPermission`
have no failing step and are total functions here. -/
theorem C15_operations_return (a : ACL) (acr : ACRole) (s : ACScope)
    (roles : List (Option ACRole)) (Scopes : List (Option ACScope)) (p : List String)
    (order : List (Entry (Option ACScope)) → List (Entry (Option ACScope)))
    (pick : Nat → List (Entry (Option ACScope)) → List (Entry (Option ACScope)))
    (roleIDs : List String) (permission : String) :
    ((a.AddRole roles).isSome = true ↔ none ∉ roles) ∧
    ((acr.AddScope Scopes).isSome = true ↔ none ∉ Scopes) ∧
    s.RemPermissionChecked p = some (s.RemPermission p) ∧
    (IsOrder order → NoNilScope acr →
      (acr.IsAllowedUniquely order permission).isSome = true) ∧
    ((∀ j, IsOrder (pick j)) →
      (∀ roleID ∈ roleIDs, ∀ r, mapGet a.roles roleID = some r → NoNilScope r) →
      (a.IsRoleAllowedUniquely pick roleIDs permission).isSome = true) := by
  refine ⟨AddRole_isSome_iff a roles, AddScope_isSome_iff acr Scopes,
    RemPermissionChecked_eq s p, fun hord hnil => ?_, fun hpick hnil => ?_⟩
  · obtain ⟨b, hb, _⟩ := IsAllowedUniquely_of_noNil acr order permission hord hnil
    rw [hb]
    rfl
  · obtain ⟨b, hb, _⟩ :=
      isRoleAllowedUniquelyFrom_of_noNil a pick 0 roleIDs permission hpick hnil
    unfold ACL.IsRoleAllowedUniquely
    rw [hb]
    rfl

/-- Witness of C15: the role `clerk` and the registry `twoRoleACL`, which hold
no nil entry, under the reversed visiting order. -/
theorem C15_operations_return_witness :
    IsOrder List.reverse ∧ NoNilScope twoScopeRole ∧
    (twoScopeRole.IsAllowedUniquely List.reverse "pay").isSome = true ∧
    (twoRoleACL.IsRoleAllowedUniquely (fun _ => List.reverse) ["manager", "ghost", "clerk"]
      "pay").isSome = true := by
  have hrev : IsOrder List.reverse := fun l => List.reverse_perm l
  have hnil : ∀ roleID ∈ ["manager", "ghost", "clerk"], ∀ r,
      mapGet twoRoleACL.roles roleID = some r → NoNilScope r := by
    intro roleID hmem r hr
    simp only [List.mem_cons, List.mem_singleton, List.not_mem_nil, or_false] at hmem
    rcases hmem with h | h | h
    · subst h
      have hm : mapGet twoRoleACL.roles "manager" = some managerRole := rfl
      rw [hm] at hr
      cases hr
      decide
    · subst h
      have hg : mapGet twoRoleACL.roles "ghost" = none := rfl
      rw [hg] at hr
      exact Option.noConfusion hr
    · subst h
      have hc : mapGet twoRoleACL.roles "clerk" = some twoScopeRole := rfl
      rw [hc] at hr
      cases hr
      decide
  have key := C15_operations_return twoRoleACL twoScopeRole scenarioScope [] [] []
    List.reverse (fun _ => List.reverse) ["manager", "ghost", "clerk"] "pay"
  exact ⟨hrev, by decide, key.2.2.2.1 hrev (by decide), key.2.2.2.2 (fun _ => hrev) hnil⟩

/-! ## Mutation of a held scope -/

theorem mapGet_afterScopeUpdate (acr : ACRole) (sc : ACScope) (scopeID : String)
    (f : ACScope → ACScope) (h : mapGet acr.Scopes scopeID = some (some sc)) (k : String) :
    mapGet (acr.afterScopeUpdate scopeID f).Scopes k =
      if k = scopeID then some (some (f sc)) else mapGet acr.Scopes k := by
  unfold ACRole.afterScopeUpdate
  simp only [h]
  by_cases hk : k = scopeID
  · subst hk
    simp only [mapGet, AList.lookup_insert, if_true]
  · simp only [mapGet, AList.lookup_insert_ne hk, if_neg hk]
    exact mapGet_mapInit _ _

theorem RemPermission_single (s : ACScope) (p : String) :
    (s.RemPermission [p]).Permissions = s.Permissions.erase p := by
  simp [ACScope.RemPermission, remPermissionStep_eq_erase]

theorem count_removeTimes (p : String) (n : Nat) (s : ACScope) :
    (removeTimes p n s).Permissions.count p = s.Permissions.count p - n := by
  induction n generalizing s with
  | zero => simp [removeTimes]
  | succ n ih =>
    rw [removeTimes, ih, RemPermission_single, List.count_erase_self]
    omega

/-! ## The claims, continued -/

/-- C16: removal does not always revoke.  When the role holds the scope `s`
under `s.ID`, after one `s.RemPermission(p)` the query `IsAllowed(s.ID, p)` is
true exactly when `p` occurred at least twice in `s.Permissions`; after `n`
successive removals it is true exactly when `p` occurred more than `n` times,
so a permission with `k` occurrences is revoked by `k` removals and by no
fewer. -/
theorem C16_removal_revokes_after_all_occurrences (r : ACRole) (s : ACScope) (p : String)
    (n : Nat) (h : mapGet r.Scopes s.ID = some (some s)) :
    ((r.afterScopeUpdate s.ID (fun sc => sc.RemPermission [p])).IsAllowed s.ID p = true ↔
      2 ≤ s.Permissions.count p) ∧
    ((r.afterScopeUpdate s.ID (removeTimes p n)).IsAllowed s.ID p = true ↔
      n < s.Permissions.count p) ∧
    (r.IsAllowed s.ID p = true ↔ 0 < s.Permissions.count p) := by
  refine ⟨?_, ?_, ?_⟩
  · rw [IsAllowed_iff]
    simp only [mapGet_afterScopeUpdate r s s.ID _ h, if_true, Option.some.injEq,
      exists_eq_left']
    rw [RemPermission_single, ← List.count_pos_iff, List.count_erase_self]
    omega
  · rw [IsAllowed_iff]
    simp only [mapGet_afterScopeUpdate r s s.ID _ h, if_true, Option.some.injEq,
      exists_eq_left']
    rw [← List.count_pos_iff, count_removeTimes]
    omega
  · rw [IsAllowed_iff, h]
    simp only [Option.some.injEq, exists_eq_left']
    exact List.count_pos_iff.symm

/-- Witness of C16: `read` occurs twice in `dupScope`; it is still granted
after one removal and denied after two. -/
theorem C16_removal_revokes_after_all_occurrences_witness :
    mapGet dupRole.Scopes dupScope.ID = some (some dupScope) ∧
    (dupRole.afterScopeUpdate dupScope.ID (fun sc => sc.RemPermission ["read"])).IsAllowed
      dupScope.ID "read" = true ∧
    ¬ (dupRole.afterScopeUpdate dupScope.ID (removeTimes "read" 2)).IsAllowed
      dupScope.ID "read" = true :=
  ⟨rfl,
   (C16_removal_revokes_after_all_occurrences dupRole dupScope "read" 2 rfl).1.2 (by decide),
   fun hgranted =>
     absurd ((C16_removal_revokes_after_all_occurrences dupRole dupScope "read" 2 rfl).2.1.1
       hgranted) (by decide)⟩

/-! ## Key and ID agreement -/

theorem ScopeKeysAgree_AddScope (acr : ACRole) (ss : List ACScope) (h : ScopeKeysAgree acr) :
    ∃ acr', acr.AddScope (ss.map some) = some acr' ∧ ScopeKeysAgree acr' := by
  obtain ⟨acr', hadd, _, _, hk⟩ := AddScope_lookup acr ss
  refine ⟨acr', hadd, fun k v hv => ?_⟩
  rw [hk k] at hv
  cases hf : ss.reverse.find? (fun sc => decide (sc.ID = k)) with
  | none =>
    rw [hf] at hv
    exact h k v hv
  | some sc =>
    rw [hf] at hv
    simp only [Option.some.injEq] at hv
    exact ⟨sc, hv.symm, by simpa using List.find?_some hf⟩

theorem ScopeKeysAgree_RemScopeByID (acr : ACRole) (IDs : List String)
    (h : ScopeKeysAgree acr) : ScopeKeysAgree (acr.RemScopeByID IDs) := by
  intro k v hv
  simp only [ACRole.RemScopeByID, mapGet_foldl_mapDelete] at hv
  by_cases hk : k ∈ IDs
  · simp [hk] at hv
  · simp only [hk, if_false] at hv
    exact h k v hv

theorem RoleKeysAgree_AddRole (a : ACL) (rs : List ACRole) (h : RoleKeysAgree a) :
    ∃ a', a.AddRole (rs.map some) = some a' ∧ RoleKeysAgree a' := by
  obtain ⟨a', hadd, hk⟩ := AddRole_lookup a rs
  refine ⟨a', hadd, fun k r hr => ?_⟩
  rw [hk k] at hr
  cases hf : rs.reverse.find? (fun r => decide (r.ID = k)) with
  | none =>
    rw [hf] at hr
    exact h k r hr
  | some r0 =>
    rw [hf] at hr
    simp only [Option.some.injEq] at hr
    subst hr
    simpa using List.find?_some hf

theorem RoleKeysAgree_RemRoleByID (a : ACL) (IDs : List String) (h : RoleKeysAgree a) :
    RoleKeysAgree (a.RemRoleByID IDs) := by
  intro k r hr
  simp only [ACL.RemRoleByID, mapGet_foldl_mapDelete] at hr
  by_cases hk : k ∈ IDs
  · simp [hk] at hr
  · simp only [hk, if_false] at hr
    exact h k r hr

theorem runRoleOps_keeps_agreement (ops : List RoleOp) (acr : ACRole)
    (h : ScopeKeysAgree acr) :
    ∃ acr', runRoleOps acr ops = some acr' ∧ ScopeKeysAgree acr' := by
  induction ops generalizing acr with
  | nil => exact ⟨acr, rfl, h⟩
  | cons op rest ih =>
    cases op with
    | addScope ss =>
      obtain ⟨acr1, h1, hagree⟩ := ScopeKeysAgree_AddScope acr ss h
      obtain ⟨acr', h2, hagree'⟩ := ih acr1 hagree
      exact ⟨acr', by simp [runRoleOps, RoleOp.apply, h1, h2], hagree'⟩
    | remScopeByID IDs =>
      obtain ⟨acr', h2, hagree'⟩ := ih _ (ScopeKeysAgree_RemScopeByID acr IDs h)
      exact ⟨acr', by simp [runRoleOps, RoleOp.apply, h2], hagree'⟩

theorem runACLOps_keeps_agreement (ops : List ACLOp) (a : ACL) (h : RoleKeysAgree a) :
    ∃ a', runACLOps a ops = some a' ∧ RoleKeysAgree a' := by
  induction ops generalizing a with
  | nil => exact ⟨a, rfl, h⟩
  | cons op rest ih =>
    cases op with
    | addRole rs =>
      obtain ⟨a1, h1, hagree⟩ := RoleKeysAgree_AddRole a rs h
      obtain ⟨a', h2, hagree'⟩ := ih a1 hagree
      exact ⟨a', by simp [runACLOps, ACLOp.apply, h1, h2], hagree'⟩
    | remRoleByID IDs =>
      obtain ⟨a', h2, hagree'⟩ := ih _ (RoleKeysAgree_RemRoleByID a IDs h)
      exact ⟨a', by simp [runACLOps, ACLOp.apply, h2], hagree'⟩

theorem ScopeKeysAgree_afterScopeUpdate (acr : ACRole) (scopeID : String)
    (f : ACScope → ACScope) (hf : ∀ sc, (f sc).ID = sc.ID) (h : ScopeKeysAgree acr) :
    ScopeKeysAgree (acr.afterScopeUpdate scopeID f) := by
  intro k v hv
  cases hget : mapGet acr.Scopes scopeID with
  | none =>
    have : acr.afterScopeUpdate scopeID f = acr := by
      simp [ACRole.afterScopeUpdate, hget]
    rw [this] at hv
    exact h k v hv
  | some o =>
    cases o with
    | none =>
      have : acr.afterScopeUpdate scopeID f = acr := by
        simp [ACRole.afterScopeUpdate, hget]
      rw [this] at hv
      exact h k v hv
    | some sc =>
      rw [mapGet_afterScopeUpdate acr sc scopeID f hget k] at hv
      by_cases hk : k = scopeID
      · subst hk
        simp only [if_true, Option.some.injEq] at hv
        obtain ⟨sc', hsc', hid⟩ := h k (some sc) hget
        simp only [Option.some.injEq] at hsc'
        subst hsc'
        exact ⟨f sc, hv.symm, by rw [hf, hid]⟩
      · simp only [hk, if_false] at hv
        exact h k v hv

/-! ## The claims, continued -/

/-- C17: key and ID agreement.  From a role with an unset scope map, every
finite sequence of `AddScope` (non-nil scopes) and `RemScopeByID` calls returns
and leaves a scope map in which every key holds a scope whose `ID` is that
key; from the zero-value `ACL`, every sequence of `AddRole` (non-nil roles) and
`RemRoleByID` calls returns and leaves a role map in which every key holds a
role whose `ID` is that key.  `AddPermission` and `RemPermission` keep the `ID`
of the scope, so applying them to a held scope keeps the agreement. -/
theorem C17_key_id_agreement (ID Name : String) (roleOps : List RoleOp)
    (aclOps : List ACLOp) (s : ACScope) (p : List String) (acr : ACRole) (k : String) :
    (∃ acr', runRoleOps { ID := ID, Name := Name, Scopes := none } roleOps = some acr' ∧
      ScopeKeysAgree acr') ∧
    (∃ a', runACLOps { roles := none } aclOps = some a' ∧ RoleKeysAgree a') ∧
    ((s.AddPermission p).ID = s.ID ∧ (s.RemPermission p).ID = s.ID) ∧
    (ScopeKeysAgree acr →
      ScopeKeysAgree (acr.afterScopeUpdate k (fun sc => sc.AddPermission p)) ∧
      ScopeKeysAgree (acr.afterScopeUpdate k (fun sc => sc.RemPermission p))) := by
  refine ⟨?_, ?_, ⟨rfl, rfl⟩, fun h => ⟨?_, ?_⟩⟩
  · exact runRoleOps_keeps_agreement roleOps _ (fun k v hv => by simp [mapGet] at hv)
  · exact runACLOps_keeps_agreement aclOps _ (fun k r hr => by simp [mapGet] at hr)
  · exact ScopeKeysAgree_afterScopeUpdate acr k _ (fun _ => rfl) h
  · exact ScopeKeysAgree_afterScopeUpdate acr k _ (fun _ => rfl) h

/-- Witness of C17: the agreement holds after `AddScope(dupScope)` and
`RemScopeByID("x")` on the zero-value role, and still after a permission is
added to the held scope. -/
theorem C17_key_id_agreement_witness :
    ∃ acr', runRoleOps { ID := "", Name := "", Scopes := none }
        [RoleOp.addScope [dupScope], RoleOp.remScopeByID ["x"]] = some acr' ∧
      ScopeKeysAgree acr' ∧
      ScopeKeysAgree (acr'.afterScopeUpdate "files" (fun sc => sc.AddPermission ["x"])) := by
  obtain ⟨acr', hrun, hagree⟩ := (C17_key_id_agreement "" ""
    [RoleOp.addScope [dupScope], RoleOp.remScopeByID ["x"]] [] dupScope ["x"] dupRole
    "files").1
  exact ⟨acr', hrun, hagree,
    ((C17_key_id_agreement "" "" [] [] dupScope ["x"] acr' "files").2.2.2 hagree).1⟩

/-! ## The unique check and the scoped checks -/

theorem GrantsSomewhere_iff (acr : ACRole) (permission : String) :
    GrantsSomewhere acr permission ↔ ∃ scopeID, acr.IsAllowed scopeID permission = true := by
  unfold GrantsSomewhere
  constructor
  · rintro ⟨k, sc, hget, hp⟩
    exact ⟨k, (IsAllowed_iff acr k permission).2 ⟨sc, hget, hp⟩⟩
  · rintro ⟨k, hk⟩
    obtain ⟨sc, hget, hp⟩ := (IsAllowed_iff acr k permission).1 hk
    exact ⟨k, sc, hget, hp⟩

theorem rangeAllowedUniquely_false_sound (l : List (Entry (Option ACScope)))
    (permission : String) (h : rangeAllowedUniquely l permission = some false) :
    ∀ e ∈ l, ∀ sc, e.2 = some sc → permission ∉ sc.Permissions := by
  induction l with
  | nil => simp
  | cons e rest ih =>
    obtain ⟨k, v⟩ := e
    cases v with
    | none => simp [rangeAllowedUniquely] at h
    | some sc =>
      by_cases hc : slicesContains sc.Permissions permission = true
      · simp [rangeAllowedUniquely, hc] at h
      · simp only [rangeAllowedUniquely, hc, Bool.false_eq_true, if_false] at h
        intro e he sc' hsc'
        rcases List.mem_cons.1 he with heq | hmem
        · subst heq
          simp only [Option.some.injEq] at hsc'
          subst hsc'
          exact fun hp => hc ((slicesContains_iff _ _).2 hp)
        · exact ih h e hmem sc' hsc'

theorem IsAllowedUniquely_false_sound (acr : ACRole)
    (order : List (Entry (Option ACScope)) → List (Entry (Option ACScope)))
    (permission : String) (hord : IsOrder order)
    (h : acr.IsAllowedUniquely order permission = some false) :
    ¬ GrantsSomewhere acr permission := by
  rintro ⟨k, sc, hget, hp⟩
  have hmem : (⟨k, some sc⟩ : Entry (Option ACScope)) ∈ order (mapEntries acr.Scopes) :=
    (hord _).mem_iff.2 ((mem_mapEntries_iff _ _ _).2 hget)
  exact rangeAllowedUniquely_false_sound _ _ h _ hmem sc rfl hp

theorem isRoleAllowedUniquelyFrom_false_sound (a : ACL)
    (pick : Nat → List (Entry (Option ACScope)) → List (Entry (Option ACScope)))
    (i : Nat) (roleIDs : List String) (permission : String) (hpick : ∀ j, IsOrder (pick j))
    (h : isRoleAllowedUniquelyFrom a pick i roleIDs permission = some false) :
    ∀ roleID ∈ roleIDs, ∀ r, mapGet a.roles roleID = some r →
      ¬ GrantsSomewhere r permission := by
  induction roleIDs generalizing i with
  | nil => simp
  | cons x xs ih =>
    unfold isRoleAllowedUniquelyFrom at h
    intro roleID hmem r hr
    cases hx : mapGet a.roles x with
    | none =>
      rw [hx] at h
      rcases List.mem_cons.1 hmem with heq | hin
      · subst heq
        rw [hx] at hr
        exact Option.noConfusion hr
      · exact ih (i + 1) h roleID hin r hr
    | some rx =>
      rw [hx] at h
      rcases hres : rx.IsAllowedUniquely (pick i) permission with _ | b
      · simp [hres] at h
      · cases b with
        | true => simp [hres] at h
        | false =>
          simp only [hres] at h
          rcases List.mem_cons.1 hmem with heq | hin
          · subst heq
            rw [hx] at hr
            cases hr
            exact IsAllowedUniquely_false_sound _ _ _ (hpick i) hres
          · exact ih (i + 1) h roleID hin r hr

/-! ## The claims, continued -/

/-- The unique check is the union of the scoped checks.  For a role with
no nil entry in its scope map, `IsAllowedUniquely(p)` is true exactly when
`IsAllowed(scopeID, p)` is true for some `scopeID`; so `IsAllowed(s, p)`
implies `IsAllowedUniquely(p)`, and on a registry whose roles have no nil
entry `IsRoleAllowed(roleIDs, s, p)` implies `IsRoleAllowedUniquely(roleIDs, p)`.
On every registry a grant of `IsRoleAllowed` is never answered by a denial of
`IsRoleAllowedUniquely`. -/
theorem unique_check_is_union_of_scoped_checks_of_noNil (r : ACRole) (a : ACL)
    (roleIDs : List String) (s p : String)
    (order : List (Entry (Option ACScope)) → List (Entry (Option ACScope)))
    (pick : Nat → List (Entry (Option ACScope)) → List (Entry (Option ACScope))) :
    (NoNilScope r → IsOrder order →
      (r.IsAllowedUniquely order p = some true ↔ ∃ scopeID, r.IsAllowed scopeID p = true) ∧
      (r.IsAllowedUniquely order p = some false ↔ ∀ scopeID, r.IsAllowed scopeID p = false) ∧
      (r.IsAllowed s p = true → r.IsAllowedUniquely order p = some true)) ∧
    ((∀ roleID ∈ roleIDs, ∀ r', mapGet a.roles roleID = some r' → NoNilScope r') →
      (∀ j, IsOrder (pick j)) →
      a.IsRoleAllowed roleIDs s p = true →
      a.IsRoleAllowedUniquely pick roleIDs p = some true) ∧
    ((∀ j, IsOrder (pick j)) →
      a.IsRoleAllowed roleIDs s p = true →
      a.IsRoleAllowedUniquely pick roleIDs p ≠ some false) := by
  refine ⟨fun hnil hord => ?_, fun hnil hpick hallowed => ?_, fun hpick hallowed hden => ?_⟩
  · obtain ⟨b, hb, hiff⟩ := IsAllowedUniquely_of_noNil r order p hord hnil
    rw [GrantsSomewhere_iff] at hiff
    have htrue : r.IsAllowedUniquely order p = some true ↔
        ∃ scopeID, r.IsAllowed scopeID p = true := by
      rw [hb, ← hiff]
      simp
    refine ⟨htrue, ?_, fun hs => htrue.2 ⟨s, hs⟩⟩
    rw [hb]
    constructor
    · intro hfalse scopeID
      simp only [Option.some.injEq] at hfalse
      rw [← Bool.not_eq_true]
      intro hgr
      have := hiff.2 ⟨scopeID, hgr⟩
      rw [hfalse] at this
      exact Bool.noConfusion this
    · intro hall
      cases b with
      | false => rfl
      | true =>
        obtain ⟨scopeID, hgr⟩ := hiff.1 rfl
        rw [hall scopeID] at hgr
        exact Bool.noConfusion hgr
  · obtain ⟨b, hb, hiff⟩ := isRoleAllowedUniquelyFrom_of_noNil a pick 0 roleIDs p hpick hnil
    obtain ⟨roleID, hmem, r', hr', hgr⟩ := (IsRoleAllowed_iff a roleIDs s p).1 hallowed
    have hb' : b = true := hiff.2 ⟨roleID, hmem, r', hr', (GrantsSomewhere_iff r' p).2 ⟨s, hgr⟩⟩
    unfold ACL.IsRoleAllowedUniquely
    rw [hb, hb']
  · obtain ⟨roleID, hmem, r', hr', hgr⟩ := (IsRoleAllowed_iff a roleIDs s p).1 hallowed
    exact isRoleAllowedUniquelyFrom_false_sound a pick 0 roleIDs p hpick hden roleID hmem r' hr'
      ((GrantsSomewhere_iff r' p).2 ⟨s, hgr⟩)

theorem twoRoleACL_noNil (roleID : String) (r : ACRole)
    (h : mapGet twoRoleACL.roles roleID = some r) : NoNilScope r := by
  unfold twoRoleACL at h
  simp only [mapGet] at h
  by_cases h1 : roleID = "clerk"
  · subst h1
    rw [AList.lookup_insert] at h
    cases h
    decide
  · rw [AList.lookup_insert_ne h1] at h
    by_cases h2 : roleID = "manager"
    · subst h2
      rw [AList.lookup_insert] at h
      cases h
      decide
    · rw [AList.lookup_insert_ne h2, AList.lookup_empty] at h
      exact Option.noConfusion h

/-- Example: in `twoRoleACL` the permission `pay` of scope `invoices`
of role `clerk` is found by the unique check, under the reversed visiting
order. -/
theorem unique_check_is_union_of_scoped_checks_example :
    NoNilScope twoScopeRole ∧ IsOrder List.reverse ∧
    twoScopeRole.IsAllowed "invoices" "pay" = true ∧
    twoScopeRole.IsAllowedUniquely List.reverse "pay" = some true ∧
    twoRoleACL.IsRoleAllowed ["manager", "clerk"] "invoices" "pay" = true ∧
    twoRoleACL.IsRoleAllowedUniquely (fun _ => List.reverse) ["manager", "clerk"] "pay"
      = some true ∧
    twoRoleACL.IsRoleAllowedUniquely (fun _ => List.reverse) ["manager", "clerk"] "pay"
      ≠ some false := by
  have hrev : IsOrder List.reverse := fun l => List.reverse_perm l
  have key := unique_check_is_union_of_scoped_checks_of_noNil twoScopeRole twoRoleACL
    ["manager", "clerk"] "invoices" "pay" List.reverse (fun _ => List.reverse)
  exact ⟨by decide, hrev, by decide, (key.1 (by decide) hrev).2.2 (by decide),
    by decide,
    key.2.1 (fun roleID _ r hr => twoRoleACL_noNil roleID r hr) (fun _ => hrev) (by decide),
    key.2.2 (fun _ => hrev) (by decide)⟩

/-! ## Dependence on the list of role IDs -/

theorem IsRoleAllowed_append (a : ACL) (xs ys : List String) (scopeID permission : String) :
    a.IsRoleAllowed (xs ++ ys) scopeID permission =
      (a.IsRoleAllowed xs scopeID permission || a.IsRoleAllowed ys scopeID permission) := by
  rw [Bool.eq_iff_iff, Bool.or_eq_true, IsRoleAllowed_iff, IsRoleAllowed_iff, IsRoleAllowed_iff]
  constructor
  · rintro ⟨roleID, hmem, h⟩
    rcases List.mem_append.1 hmem with hx | hy
    · exact Or.inl ⟨roleID, hx, h⟩
    · exact Or.inr ⟨roleID, hy, h⟩
  · rintro (⟨roleID, hmem, h⟩ | ⟨roleID, hmem, h⟩)
    · exact ⟨roleID, List.mem_append.2 (Or.inl hmem), h⟩
    · exact ⟨roleID, List.mem_append.2 (Or.inr hmem), h⟩

theorem IsRoleAllowed_of_same_elements (a : ACL) (xs ys : List String)
    (scopeID permission : String) (h : ∀ roleID, roleID ∈ xs ↔ roleID ∈ ys) :
    a.IsRoleAllowed xs scopeID permission = a.IsRoleAllowed ys scopeID permission := by
  rw [Bool.eq_iff_iff, IsRoleAllowed_iff, IsRoleAllowed_iff]
  constructor
  · rintro ⟨roleID, hmem, hr⟩
    exact ⟨roleID, (h roleID).1 hmem, hr⟩
  · rintro ⟨roleID, hmem, hr⟩
    exact ⟨roleID, (h roleID).2 hmem, hr⟩

theorem IsRoleAllowed_perm (a : ACL) (xs ys : List String) (scopeID permission : String)
    (h : xs.Perm ys) :
    a.IsRoleAllowed xs scopeID permission = a.IsRoleAllowed ys scopeID permission :=
  IsRoleAllowed_of_same_elements a xs ys scopeID permission (fun _ => h.mem_iff)

theorem IsRoleAllowed_mono (a : ACL) (xs ys : List String) (scopeID permission : String)
    (hsub : ∀ roleID ∈ xs, roleID ∈ ys) (h : a.IsRoleAllowed xs scopeID permission = true) :
    a.IsRoleAllowed ys scopeID permission = true := by
  rw [IsRoleAllowed_iff] at h ⊢
  obtain ⟨roleID, hmem, hr⟩ := h
  exact ⟨roleID, hsub roleID hmem, hr⟩

theorem IsRoleAllowedUniquely_append_of_noNil (a : ACL)
    (pick : Nat → List (Entry (Option ACScope)) → List (Entry (Option ACScope)))
    (xs ys : List String) (permission : String) (hpick : ∀ j, IsOrder (pick j))
    (h : ∀ roleID ∈ xs ++ ys, ∀ r, mapGet a.roles roleID = some r → NoNilScope r) :
    ∃ b c, a.IsRoleAllowedUniquely pick xs permission = some b ∧
      a.IsRoleAllowedUniquely pick ys permission = some c ∧
      a.IsRoleAllowedUniquely pick (xs ++ ys) permission = some (b || c) := by
  obtain ⟨b, hb, hbiff⟩ := isRoleAllowedUniquelyFrom_of_noNil a pick 0 xs permission hpick
    (fun roleID hmem => h roleID (List.mem_append.2 (Or.inl hmem)))
  obtain ⟨c, hc, hciff⟩ := isRoleAllowedUniquelyFrom_of_noNil a pick 0 ys permission hpick
    (fun roleID hmem => h roleID (List.mem_append.2 (Or.inr hmem)))
  obtain ⟨d, hd, hdiff⟩ := isRoleAllowedUniquelyFrom_of_noNil a pick 0 (xs ++ ys) permission
    hpick h
  refine ⟨b, c, hb, hc, ?_⟩
  have hdeq : d = (b || c) := by
    rw [Bool.eq_iff_iff, Bool.or_eq_true, hdiff, hbiff, hciff]
    constructor
    · rintro ⟨roleID, hmem, hr⟩
      rcases List.mem_append.1 hmem with hx | hy
      · exact Or.inl ⟨roleID, hx, hr⟩
      · exact Or.inr ⟨roleID, hy, hr⟩
    · rintro (⟨roleID, hmem, hr⟩ | ⟨roleID, hmem, hr⟩)
      · exact ⟨roleID, List.mem_append.2 (Or.inl hmem), hr⟩
      · exact ⟨roleID, List.mem_append.2 (Or.inr hmem), hr⟩
  unfold ACL.IsRoleAllowedUniquely
  rw [hd, hdeq]

theorem IsRoleAllowedUniquely_of_same_elements_of_noNil (a : ACL)
    (pick pick' : Nat → List (Entry (Option ACScope)) → List (Entry (Option ACScope)))
    (xs ys : List String) (permission : String)
    (hpick : ∀ j, IsOrder (pick j)) (hpick' : ∀ j, IsOrder (pick' j))
    (hsame : ∀ roleID, roleID ∈ xs ↔ roleID ∈ ys)
    (h : ∀ roleID ∈ xs, ∀ r, mapGet a.roles roleID = some r → NoNilScope r) :
    a.IsRoleAllowedUniquely pick xs permission =
      a.IsRoleAllowedUniquely pick' ys permission := by
  obtain ⟨b, hb, hbiff⟩ := isRoleAllowedUniquelyFrom_of_noNil a pick 0 xs permission hpick h
  obtain ⟨c, hc, hciff⟩ := isRoleAllowedUniquelyFrom_of_noNil a pick' 0 ys permission hpick'
    (fun roleID hmem => h roleID ((hsame roleID).2 hmem))
  have hbc : b = c := by
    rw [Bool.eq_iff_iff, hbiff, hciff]
    constructor
    · rintro ⟨roleID, hmem, hr⟩
      exact ⟨roleID, (hsame roleID).1 hmem, hr⟩
    · rintro ⟨roleID, hmem, hr⟩
      exact ⟨roleID, (hsame roleID).2 hmem, hr⟩
  unfold ACL.IsRoleAllowedUniquely
  rw [hb, hc, hbc]

theorem AddPermission_permissions (s : ACScope) (p : List String) :
    (s.AddPermission p).Permissions = s.Permissions ++ p := by
  simp [ACScope.AddPermission, slicesConcat]

theorem RemPermission_permissions (s : ACScope) (p : List String) :
    (s.RemPermission p).Permissions = p.foldl List.erase s.Permissions :=
  foldl_remPermissionStep_eq p s.Permissions

theorem slicesContains_eq_of_count_eq (l l' : List String) (q : String)
    (h : l'.count q = l.count q) : slicesContains l' q = slicesContains l q := by
  rw [Bool.eq_iff_iff, slicesContains_iff, slicesContains_iff, ← List.count_pos_iff,
    ← List.count_pos_iff, h]

/-! ## The claims, continued -/

/-- C19 (the code departs from the claim for `IsRoleAllowedUniquely`): for
`IsRoleAllowed` the result on `xs ++ ys` is the disjunction of the results on
`xs` and `ys`, so swapping or repeating the lists changes nothing.  For
`IsRoleAllowedUniquely` this fails in `nilEntryACL`: `["y"]` is granted, but
`["x"] ++ ["y"]` panics on the nil scope entry of role `x` while `["y"] ++ ["x"]`
returns true, so the outcome changes under a permutation and adding a role ID
turns a grant into a failure. -/
theorem C19_role_list_equations_and_nil_entry :
    (∀ (a : ACL) (xs ys : List String) (scopeID permission : String),
      a.IsRoleAllowed (xs ++ ys) scopeID permission =
        (a.IsRoleAllowed xs scopeID permission || a.IsRoleAllowed ys scopeID permission) ∧
      a.IsRoleAllowed (ys ++ xs) scopeID permission =
        a.IsRoleAllowed (xs ++ ys) scopeID permission ∧
      a.IsRoleAllowed (xs ++ xs) scopeID permission = a.IsRoleAllowed xs scopeID permission) ∧
    (∃ A, nilEntryACL = some A ∧
      A.IsRoleAllowedUniquely (fun _ => id) ["y"] "p" = some true ∧
      A.IsRoleAllowedUniquely (fun _ => id) (["x"] ++ ["y"]) "p" = none ∧
      A.IsRoleAllowedUniquely (fun _ => id) (["y"] ++ ["x"]) "p" = some true ∧
      A.IsRoleAllowedUniquely (fun _ => List.reverse) (["x"] ++ ["y"]) "p" = none) := by
  refine ⟨fun a xs ys scopeID permission => ⟨IsRoleAllowed_append a xs ys scopeID permission,
    ?_, ?_⟩, ?_⟩
  · rw [IsRoleAllowed_append, IsRoleAllowed_append, Bool.or_comm]
  · rw [IsRoleAllowed_append, Bool.or_self]
  · refine ⟨{ roles := some (((∅ : GoMap ACRole).insert "x" nilEntryRole).insert "y"
      grantRole) }, rfl, ?_, ?_, ?_, ?_⟩ <;> decide

/-- Permission edits are local when the argument has storage of its own.  For a
string `q` that is not among the arguments `p`, `AddPermission(p...)` and
`RemPermission(p...)` leave the number
of occurrences of `q`, and so whether the scope grants `q`, unchanged;
`AddPermission` keeps every granted permission granted and `RemPermission`
keeps every denied permission denied. -/
theorem permission_edits_are_local_of_own_storage (s : ACScope) (p : List String) (q : String) :
    (q ∉ p →
      (s.AddPermission p).Permissions.count q = s.Permissions.count q ∧
      (s.RemPermission p).Permissions.count q = s.Permissions.count q ∧
      slicesContains (s.AddPermission p).Permissions q = slicesContains s.Permissions q ∧
      slicesContains (s.RemPermission p).Permissions q = slicesContains s.Permissions q) ∧
    (slicesContains s.Permissions q = true →
      slicesContains (s.AddPermission p).Permissions q = true) ∧
    (slicesContains s.Permissions q = false →
      slicesContains (s.RemPermission p).Permissions q = false) := by
  refine ⟨fun hq => ?_, fun hgranted => ?_, fun hdenied => ?_⟩
  · have hzero : p.count q = 0 := List.count_eq_zero_of_not_mem hq
    have hadd : (s.AddPermission p).Permissions.count q = s.Permissions.count q := by
      rw [AddPermission_permissions, List.count_append, hzero, Nat.add_zero]
    have hrem : (s.RemPermission p).Permissions.count q = s.Permissions.count q := by
      rw [RemPermission_permissions, count_foldl_erase, hzero, Nat.sub_zero]
    exact ⟨hadd, hrem, slicesContains_eq_of_count_eq _ _ q hadd,
      slicesContains_eq_of_count_eq _ _ q hrem⟩
  · rw [slicesContains_iff] at hgranted ⊢
    rw [AddPermission_permissions]
    exact List.mem_append.2 (Or.inl hgranted)
  · rw [← Bool.not_eq_true, slicesContains_iff] at hdenied ⊢
    rw [RemPermission_permissions]
    exact fun hmem => hdenied ((foldl_erase_sublist p s.Permissions).subset hmem)

/-- Example: on the scope of the scenario, editing `write` and `audit`
leaves `read` granted and `delete` denied. -/
theorem permission_edits_are_local_example :
    "read" ∉ ["write", "audit"] ∧
    slicesContains (scenarioScope.RemPermission ["write", "audit"]).Permissions "read"
      = slicesContains scenarioScope.Permissions "read" ∧
    slicesContains (scenarioScope.AddPermission ["write", "audit"]).Permissions "read" = true ∧
    slicesContains (scenarioScope.RemPermission ["write", "audit"]).Permissions "delete"
      = false :=
  ⟨by decide,
   ((permission_edits_are_local_of_own_storage scenarioScope ["write", "audit"] "read").1
      (by decide)).2.2.2,
   (permission_edits_are_local_of_own_storage scenarioScope ["write", "audit"] "read").2.1 (by decide),
   (permission_edits_are_local_of_own_storage scenarioScope ["write", "audit"] "delete").2.2 (by decide)⟩

/-! ## `RemPermission` on the backing array -/

theorem remPermissionStepMem_live (clears : Bool) (st : PermStore) (v : String) :
    (remPermissionStepMem clears st v).live = remPermissionStep st.live v := by
  unfold remPermissionStepMem remPermissionStep
  by_cases h : 0 ≤ slicesIndex st.live v
  · simp [h, PermStore.deleteAt]
  · simp [h]

theorem remPermissionLoopMem_fresh (clears : Bool) (vals rest : List String) (k : Nat)
    (st : PermStore) (h : vals.drop k = rest) :
    (remPermissionLoopMem clears (PermArg.fresh vals) rest.length k st).live =
      rest.foldl remPermissionStep st.live := by
  induction rest generalizing k st with
  | nil => rfl
  | cons v rest' ih =>
    have hread : (PermArg.fresh vals).read k st = v := by
      have hk : vals[k]? = some v := by
        have := congrArg (fun l => l[0]?) h
        simpa using this
      simp [PermArg.read, List.getD, hk]
    have hdrop : vals.drop (k + 1) = rest' := by
      have := congrArg (fun l => l.drop 1) h
      simpa [Nat.add_comm] using this
    simp only [List.length_cons, remPermissionLoopMem, List.foldl_cons, hread]
    rw [ih (k + 1) _ hdrop, remPermissionStepMem_live]

theorem RemPermissionMem_fresh (clears : Bool) (r : ACScope) (vals : List String) :
    r.RemPermissionMem clears (PermArg.fresh vals) = r.RemPermission vals := by
  unfold ACScope.RemPermissionMem ACScope.RemPermission
  rw [PermArg.len, remPermissionLoopMem_fresh clears vals vals 0 _ rfl]

theorem RemPermissionMem_shared_one (clears : Bool) (r : ACScope) (off : Nat) :
    r.RemPermissionMem clears (PermArg.shared off 1) =
      r.RemPermission [r.Permissions.getD off ""] := by
  simp [ACScope.RemPermissionMem, ACScope.RemPermission, PermArg.len, remPermissionLoopMem,
    remPermissionStepMem_live, PermArg.read]

/-! ## The claims on which the code departs through shared storage or nil entries -/

/-- C10 (the code departs from the claim): for an argument with storage of its
own the call leaves the list the claim describes.  For
`s.RemPermission(s.Permissions...)` on the permissions `a, b, c` it does not:
the loop reads its argument from the backing array that `slices.Delete` shifts,
so after `a` is deleted the second element read is `c`, and the call leaves
`b`, where erasing the first occurrence of `a`, `b` and `c` in turn leaves
nothing and the claimed count of `b` is 0. -/
theorem C10_RemPermission_on_own_slice_leaves_b :
    (∀ (clears : Bool) (s : ACScope) (vals : List String) (q : String),
      (s.RemPermissionMem clears (PermArg.fresh vals)).Permissions
        = specRemovePermission s.Permissions vals ∧
      (s.RemPermissionMem clears (PermArg.fresh vals)).Permissions.Sublist s.Permissions ∧
      (s.RemPermissionMem clears (PermArg.fresh vals)).Permissions.count q
        = s.Permissions.count q - vals.count q) ∧
    (∀ clears : Bool,
      (abcScope.RemPermissionMem clears (PermArg.shared 0 3)).Permissions = ["b"] ∧
      (abcScope.RemPermissionMem clears (PermArg.shared 0 3)).Permissions.count "b" = 1) ∧
    specRemovePermission abcScope.Permissions ["a", "b", "c"] = [] ∧
    abcScope.Permissions.count "b" - ["a", "b", "c"].count "b" = 0 := by
  refine ⟨fun clears s vals q => ?_, fun clears => ?_, by decide, by decide⟩
  · rw [RemPermissionMem_fresh]
    have hcode : (s.RemPermission vals).Permissions = vals.foldl List.erase s.Permissions :=
      foldl_remPermissionStep_eq vals s.Permissions
    refine ⟨?_, ?_, ?_⟩
    · rw [hcode, specRemovePermission, foldl_specEraseFirst_eq]
    · rw [hcode]
      exact foldl_erase_sublist vals s.Permissions
    · rw [hcode]
      exact count_foldl_erase vals s.Permissions q
  · cases clears <;> exact ⟨by decide, by decide⟩

/-- C18 (the code departs from the claim): in `nilEntryACL` the scoped check
`IsRoleAllowed(["x", "y"], "y", "p")` is true, through role `y`, but
`IsRoleAllowedUniquely(["x", "y"], "p")` is not: role `x` is visited first and
`IsAllowedUniquely` panics on its nil scope entry, under either visiting
order. -/
theorem C18_registry_grant_without_unique_grant :
    ∃ A, nilEntryACL = some A ∧
      A.IsRoleAllowed ["x", "y"] "y" "p" = true ∧
      A.IsRoleAllowedUniquely (fun _ => id) ["x", "y"] "p" = none ∧
      A.IsRoleAllowedUniquely (fun _ => List.reverse) ["x", "y"] "p" = none ∧
      A.IsRoleAllowedUniquely (fun _ => id) ["x", "y"] "p" ≠ some true := by
  refine ⟨{ roles := some (((∅ : GoMap ACRole).insert "x" nilEntryRole).insert "y"
    grantRole) }, rfl, ?_, ?_, ?_, ?_⟩ <;> decide

/-- C20 (the code departs from the claim for `RemPermission`): `AddPermission`
adds to the count of every string its count among the arguments, so it changes
no other string and revokes nothing.  For
`s.RemPermission(s.Permissions[:2]...)` on the permissions `a, b, c` the
argument is `a, b`, which does not name `c`; yet after `a` is deleted the loop
reads `c` from the shifted backing array and deletes it, so the count of `c`
goes from 1 to 0 and `b` stays. -/
theorem C20_RemPermission_on_own_window_removes_unnamed :
    (∀ (s : ACScope) (p : List String) (q : String),
      (s.AddPermission p).Permissions.count q = s.Permissions.count q + p.count q) ∧
    abcScope.Permissions.take 2 = ["a", "b"] ∧
    "c" ∉ abcScope.Permissions.take 2 ∧
    abcScope.Permissions.count "c" = 1 ∧
    (∀ clears : Bool,
      (abcScope.RemPermissionMem clears (PermArg.shared 0 2)).Permissions = ["b"] ∧
      (abcScope.RemPermissionMem clears (PermArg.shared 0 2)).Permissions.count "c" = 0) := by
  refine ⟨fun s p q => ?_, by decide, by decide, by decide, fun clears => ?_⟩
  · rw [AddPermission_permissions, List.count_append]
  · cases clears <;> exact ⟨by decide, by decide⟩

end GoAcl
